import Mathlib

/-!
# OpenClaw session-lifecycle core — verification of spec claims

Shallow embedding of the TypeScript sources of `aira-core/openclaw`.
JavaScript strings are modelled as `List Char` (`JStr`); JavaScript `Map`s
(insertion-ordered) as association lists with head = oldest entry; thrown
exceptions as `Option`/`none`; external primitives (`Date.now`, the crypto
hashes, `Date.parse`) as explicit parameters.  Each definition mirrors one
source function, named after it.
-/

set_option maxRecDepth 10000

namespace OpenClaw

/-- JavaScript strings, modelled as lists of characters. -/
abbrev JStr := List Char

/-- Whitespace as recognized by JavaScript `String.prototype.trim`
(the characters relevant to this codebase: space, tab, LF, CR, FF, VT, NBSP). -/
def jsIsWs (c : Char) : Bool :=
  c = ' ' || c = '\t' || c = '\n' || c = '\r' || c = '\x0c' || c = '\x0b' || c = ' '

/-- `String.prototype.trim`: drop whitespace from both ends. -/
def jsTrim (s : JStr) : JStr :=
  ((s.dropWhile jsIsWs).reverse.dropWhile jsIsWs).reverse

/-- `String.prototype.startsWith(p)`. -/
def jsStartsWith : JStr → JStr → Bool
  | _, [] => true
  | [], _ :: _ => false
  | c :: s, d :: p => c = d && jsStartsWith s p

/-- Decimal digits of a natural number, as characters (JS number → string for
non-negative integers). -/
def natToJStr (n : Nat) : JStr :=
  if h : n < 10 then [Nat.digitChar n]
  else natToJStr (n / 10) ++ [Nat.digitChar (n % 10)]
  decreasing_by exact Nat.div_lt_self (Nat.lt_of_lt_of_le (by decide) (Nat.not_lt.mp h)) (by decide)

/-- JS number → string for integers (ms timestamps and similar). -/
def intToJStr (n : Int) : JStr :=
  if n < 0 then '-' :: natToJStr n.natAbs else natToJStr n.toNat

/-- UTF-8 byte length of a string (`Buffer.byteLength`). -/
def utf8Len (s : JStr) : Nat :=
  (s.map Char.utf8Size).sum

/-- Split a string at every `':'`, keeping empty pieces (the colon structure
used by the external-id regexes). -/
def splitColon : JStr → List JStr
  | [] => [[]]
  | c :: rest =>
    if c = ':' then [] :: splitColon rest
    else
      match splitColon rest with
      | [] => [[c]]
      | g :: gs => (c :: g) :: gs

/-! ## JSON values

JSON-serializable JavaScript values (the payloads passed to the gateway's
JSON send and the parsed transcript records).  Numbers are modelled as
integers (every number appearing in these code paths is an integer:
timestamps, counters, flags). -/

inductive Json where
  | null
  | bool (b : Bool)
  | num (n : Int)
  | str (s : JStr)
  | arr (elems : List Json)
  | obj (fields : List (JStr × Json))

/-- JSON string-literal escaping (`JSON.stringify` on a string): the escapes
that matter for byte counting; other characters pass through. -/
def jsonEscapeChar (c : Char) : JStr :=
  if c = '"' then ['\\', '"']
  else if c = '\\' then ['\\', '\\']
  else if c = '\n' then ['\\', 'n']
  else if c = '\r' then ['\\', 'r']
  else if c = '\t' then ['\\', 't']
  else [c]

def jsonQuote (s : JStr) : JStr :=
  '"' :: (s.flatMap jsonEscapeChar) ++ ['"']

mutual

/-- `JSON.stringify` over `Json` values.  On JSON-representable values the
real `JSON.stringify` always returns a (nonempty) string; its `try/catch`
wrappers in the sources can only fire for circular or BigInt inputs, which
`Json` excludes. -/
def jsonStringify : Json → JStr
  | .null => "null".toList
  | .bool true => "true".toList
  | .bool false => "false".toList
  | .num n => intToJStr n
  | .str s => jsonQuote s
  | .arr es => '[' :: jsonStringifyArr es ++ [']']
  | .obj fs => '{' :: jsonStringifyObj fs ++ ['}']

def jsonStringifyArr : List Json → JStr
  | [] => []
  | [e] => jsonStringify e
  | e :: rest => jsonStringify e ++ ',' :: jsonStringifyArr rest

def jsonStringifyObj : List (JStr × Json) → JStr
  | [] => []
  | [(k, v)] => jsonQuote k ++ ':' :: jsonStringify v
  | (k, v) :: rest => jsonQuote k ++ ':' :: jsonStringify v ++ ',' :: jsonStringifyObj rest

end

/-- Field lookup on a JS object (`o.name`); `none` both for a missing field
and for access on a non-object. -/
def Json.getField : Json → JStr → Option Json
  | .obj fields, name => (fields.find? (fun p => p.1 = name)).map (·.2)
  | _, _ => none

/-- JS nullish test (`x == null`): absent or `null`. -/
def isNullish : Option Json → Bool
  | none => true
  | some .null => true
  | some _ => false

/-- JS nullish coalescing over field accesses: first non-nullish value. -/
def firstNonNullish : List (Option Json) → Option Json
  | [] => none
  | v :: rest => if isNullish v then firstNonNullish rest else v

/-! ## Gateway WebSocket backpressure-guarded send

From `createBackpressureGuardedJsonSend` (gateway ws-connection handler).
The socket's `bufferedAmount` is read once per call in the source (the
re-read inside `closeForBackpressure` observes the same value in the
synchronous call); it is a single input here. -/

/-- The close invoked for backpressure: `close(1008, "slow consumer")`. -/
structure WsClose where
  code : Nat
  reason : JStr
deriving DecidableEq, Repr

/-- The close-cause record set via `setCloseCause("ws-backpressure", meta)`:
cause plus the metadata assembled by `closeForBackpressure`. -/
structure WsCloseCause where
  cause : JStr
  maxBufferedBytes : Nat
  bufferedAmount : Nat
  phase : JStr
  bufferedBefore : Nat
  frameBytes : Option Nat
deriving DecidableEq, Repr

/-- Outcome of one call to the guarded send. -/
inductive WsSendOutcome where
  /-- `setCloseCause` then `close(code, reason)`; the frame is not written. -/
  | closed (close : WsClose) (cause : WsCloseCause)
  /-- `socket.send(frame)` was invoked (send exceptions are swallowed). -/
  | sent (frame : JStr)
deriving DecidableEq, Repr

/-- `createBackpressureGuardedJsonSend(params)` applied to one frame `obj`:
the returned closure's body. -/
def wsJsonSend (maxBufferedBytes : Nat) (bufferedAmount : Nat) (obj : Json) :
    WsSendOutcome :=
  let bufferedBefore := bufferedAmount
  if bufferedBefore > maxBufferedBytes then
    .closed ⟨1008, "slow consumer".toList⟩
      ⟨"ws-backpressure".toList, maxBufferedBytes, bufferedAmount,
        "pre-stringify".toList, bufferedBefore, none⟩
  else
    let frame := jsonStringify obj
    let frameBytes := utf8Len frame
    if bufferedBefore + frameBytes > maxBufferedBytes then
      .closed ⟨1008, "slow consumer".toList⟩
        ⟨"ws-backpressure".toList, maxBufferedBytes, bufferedAmount,
          "pre-send".toList, bufferedBefore, some frameBytes⟩
    else
      .sent frame

/-! ## Gateway readiness (`src/gateway/readiness.ts`)

`Date.now()` readings are explicit `Int` arguments. -/

inductive GatewayReadinessPhase where
  | starting
  | listening
  | ready
  | error
deriving DecidableEq, Repr, Fintype

structure GatewayReadinessSnapshot where
  phase : GatewayReadinessPhase
  since : Int
  phases : List (GatewayReadinessPhase × Int)
deriving DecidableEq, Repr

/-- The module-initial readiness value (`Date.now()` read at load time). -/
def initialReadiness (t0 : Int) : GatewayReadinessSnapshot :=
  ⟨.starting, t0, [(.starting, t0)]⟩

/-- `markGatewayReadinessPhase(phase)` with the `Date.now()` reading `now`. -/
def markGatewayReadinessPhase (st : GatewayReadinessSnapshot)
    (phase : GatewayReadinessPhase) (now : Int) : GatewayReadinessSnapshot :=
  if st.phase = phase then st
  else ⟨phase, now, st.phases ++ [(phase, now)]⟩

/-- A sequence of `markGatewayReadinessPhase` calls, each a `(phase, now)`. -/
def runReadiness (st : GatewayReadinessSnapshot)
    (calls : List (GatewayReadinessPhase × Int)) : GatewayReadinessSnapshot :=
  calls.foldl (fun s c => markGatewayReadinessPhase s c.1 c.2) st

/-- Timestamps of the phase list are (weakly) non-decreasing. -/
def phasesTimesMono (l : List (GatewayReadinessPhase × Int)) : Prop :=
  List.Chain' (fun a b => a.2 ≤ b.2) l

/-- Adjacent entries of the phase list carry distinct phase values. -/
def phasesAdjDistinct (l : List (GatewayReadinessPhase × Int)) : Prop :=
  List.Chain' (fun a b => a.1 ≠ b.1) l

/-- The distinctness asserted by the claim: every phase value other than the
first entry's appears at most once in the list. -/
def readinessDistinctClaim (st : GatewayReadinessSnapshot) : Prop :=
  ∀ p, st.phases.head?.map Prod.fst ≠ some p →
    st.phases.countP (fun e => e.1 = p) ≤ 1

/-! ## Telegram voice-send deduper (`src/telegram/voice-dedupe.ts`)

JS `Map`s are insertion-ordered; they are modelled as association lists with
the head being the oldest (first-inserted) entry.  `Map.delete` of a key
followed by `Map.set` moves the key to the tail, which is exactly what the
LRU refresh relies on. -/

/-- Per-chat LRU: fingerprint → timestamp, insertion-ordered. -/
abbrev VoiceDedupeChatState := List (JStr × Int)

/-- Process-wide chat map: `accountId:chatId` → per-chat state. -/
abbrev VoiceDedupeByChat := List (JStr × VoiceDedupeChatState)

/-- `Map.get`: first (and, on map-shaped lists, only) entry for `k`. -/
def mapGet {β : Type} (k : JStr) : List (JStr × β) → Option β
  | [] => none
  | (a, v) :: rest => if a = k then some v else mapGet k rest

/-- `Map.delete` (a JS map holds each key once; on lists we drop every
occurrence, which coincides on map-shaped lists). -/
def mapDelete {β : Type} (k : JStr) (m : List (JStr × β)) : List (JStr × β) :=
  m.filter (fun p => ¬ p.1 = k)

/-- `Map.delete` + `Map.set`: (re-)insert at the tail. -/
def mapSetTail {β : Type} (k : JStr) (v : β) (m : List (JStr × β)) :
    List (JStr × β) :=
  mapDelete k m ++ [(k, v)]

/-- Update the value held for a present key in place (mutation of the stored
object), preserving insertion order. -/
def mapSetInPlace {β : Type} (k : JStr) (v : β) (m : List (JStr × β)) :
    List (JStr × β) :=
  m.map (fun p => if p.1 = k then (k, v) else p)

/-- The eviction loop shared by `touchChat` and `touchFingerprint`:
`while (size > max) { const oldest = keys().next().value; if (!oldest) break;
delete(oldest); }`.  Note the JS-truthiness guard: an *empty-string* oldest
key stops the loop without deleting. -/
def evictOldest {β : Type} (max : Nat) : List (JStr × β) → List (JStr × β)
  | [] => []
  | (k, v) :: rest =>
    if ((k, v) :: rest).length > max then
      if k = [] then (k, v) :: rest
      else evictOldest max rest
    else (k, v) :: rest

/-- `touchChat(key, state)`: refresh chat-level LRU order, then evict to
`MAX_CHATS = 500`. -/
def touchChat (key : JStr) (state : VoiceDedupeChatState) (m : VoiceDedupeByChat) :
    VoiceDedupeByChat :=
  evictOldest 500 (mapSetTail key state m)

/-- `touchFingerprint(state, fp, ts)`: refresh fingerprint LRU order, then
evict to `MAX_FINGERPRINTS_PER_CHAT = 50`. -/
def touchFingerprint (state : VoiceDedupeChatState) (fp : JStr) (ts : Int) :
    VoiceDedupeChatState :=
  evictOldest 50 (mapSetTail fp ts state)

/-- `pruneExpired(state, now, windowMs)`: from the head, delete entries with
`now - ts > windowMs`; stop at the first non-expired entry. -/
def pruneExpired (now windowMs : Int) : VoiceDedupeChatState → VoiceDedupeChatState
  | [] => []
  | (fp, ts) :: rest =>
    if now - ts ≤ windowMs then (fp, ts) :: rest
    else pruneExpired now windowMs rest

/-- `shouldDedupeTelegramVoiceSend(params)`, as a transition on the
process-wide map.  Returns `(duplicate?, new map)`. -/
def shouldDedupeTelegramVoiceSend (m : VoiceDedupeByChat)
    (accountId chatId fingerprint : JStr) (now windowMs : Int) :
    Bool × VoiceDedupeByChat :=
  let chatKey := accountId ++ ':' :: chatId
  let st0 := (mapGet chatKey m).getD []
  let m1 := touchChat chatKey st0 m
  let st1 := pruneExpired now windowMs st0
  match mapGet fingerprint st1 with
  | some ts =>
    if now - ts ≤ windowMs then
      (true, mapSetInPlace chatKey (touchFingerprint st1 fingerprint ts) m1)
    else
      (false, mapSetInPlace chatKey (touchFingerprint st1 fingerprint now) m1)
  | none =>
    (false, mapSetInPlace chatKey (touchFingerprint st1 fingerprint now) m1)

/-- A sequence of `shouldDedupeTelegramVoiceSend` calls for one fixed
`(accountId, chatId, fingerprint)` at the given times; returns the results
and the final map. -/
def runVoiceDedupe (m : VoiceDedupeByChat) (accountId chatId fingerprint : JStr)
    (windowMs : Int) : List Int → List Bool × VoiceDedupeByChat
  | [] => ([], m)
  | now :: rest =>
    let r := shouldDedupeTelegramVoiceSend m accountId chatId fingerprint now windowMs
    let rr := runVoiceDedupe r.2 accountId chatId fingerprint windowMs rest
    (r.1 :: rr.1, rr.2)

/-- The chat keyed `chatKey` stores fingerprint `fp` with timestamp `ts`,
as the most recently touched entry, and no other entry for `fp`. -/
def chatHasFp (m : VoiceDedupeByChat) (chatKey fp : JStr) (ts : Int) : Prop :=
  ∃ l, mapGet chatKey m = some (l ++ [(fp, ts)]) ∧ ∀ p ∈ l, p.1 ≠ fp

/-! ## SK-Sync wake-parent-on-end tracker (`extensions/sk-sync`)

`createWakeParentOnEndTracker`: a closure over `entriesByRunId : Map`.
`randomIdempotencyKey()` is fresh randomness and is left out of the wake
record; the wake RPC's result does not influence the tracker state (the
`await` is wrapped in `try/catch` after the `delete`). -/

structure WakeParentOnEndEntry where
  parentSessionKey : JStr
  childSessionKey : JStr
  wakeParentOnEnd : Bool
deriving DecidableEq, Repr

/-- `entriesByRunId`. -/
abbrev WakeTrackerState := List (JStr × WakeParentOnEndEntry)

/-- `Map.set`: update in place when present (JS `Map.set` keeps the original
insertion position), append otherwise. -/
def mapSet {β : Type} (k : JStr) (v : β) : List (JStr × β) → List (JStr × β)
  | [] => [(k, v)]
  | (a, w) :: rest => if a = k then (k, v) :: rest else (a, w) :: mapSet k v rest

/-- `resolveWakeParentOnEnd(value)`: default `true`, opt-out with `false`. -/
def resolveWakeParentOnEnd : Option Bool → Bool
  | some false => false
  | _ => true

/-- `mapOutcomeToSessionState(outcome)`. -/
def mapOutcomeToSessionState (outcome : Option JStr) : JStr :=
  if outcome = some "ok".toList then "DONE".toList
  else if outcome = some "timeout".toList then "FAILED".toList
  else if outcome = some "error".toList then "FAILED".toList
  else if outcome = some "killed".toList ∨ outcome = some "reset".toList ∨
      outcome = some "deleted".toList then "CANCELLED".toList
  else "FAILED".toList

/-- `trackSpawn(input)`: record the entry unless waking is opted out or the
`runId`/`parentSessionKey` is null/empty (JS falsiness). -/
def trackSpawn (st : WakeTrackerState) (runId parentSessionKey : Option JStr)
    (childSessionKey : JStr) (wakeParentOnEnd : Option Bool) : WakeTrackerState :=
  if ¬ resolveWakeParentOnEnd wakeParentOnEnd then st
  else
    match runId with
    | none => st
    | some r =>
      if r = [] then st
      else
        match parentSessionKey with
        | none => st
        | some p =>
          if p = [] then st
          else mapSet r ⟨p, childSessionKey, true⟩ st

/-- The `agent` RPC issued through `wakeParent` (idempotency key omitted:
fresh randomness). -/
structure WakeCall where
  runId : JStr
  sessionKey : JStr
  lane : JStr
  message : JStr
deriving DecidableEq, Repr

/-- The human-readable wake notice. -/
def wakeMessage (runId : JStr) (entry : WakeParentOnEndEntry)
    (outcome : Option JStr) : JStr :=
  "SK-Sync wake: subagent ended status=".toList ++ mapOutcomeToSessionState outcome ++
  " child=".toList ++ entry.childSessionKey ++
  " run=".toList ++ runId ++
  " outcome=".toList ++ outcome.getD "unknown".toList ++
  ". Respond with a brief ack + next step.".toList

/-- `handleSubagentEnded(input)`: returns the tracker state after the call
together with the wake RPC issued, if any.  The entry is deleted *before*
the wake RPC is awaited, and the state is unaffected by the RPC's result. -/
def handleSubagentEnded (st : WakeTrackerState) (runId : Option JStr)
    (outcome : Option JStr) : WakeTrackerState × Option WakeCall :=
  match runId with
  | none => (st, none)
  | some r =>
    if r = [] then (st, none)
    else
      match mapGet r st with
      | none => (st, none)
      | some entry =>
        if ¬ entry.wakeParentOnEnd then (st, none)
        else
          (mapDelete r st,
            some ⟨r, entry.parentSessionKey, "sk-sync-wake".toList,
              wakeMessage r entry outcome⟩)

/-- A sequence of `handleSubagentEnded` invocations, collecting all wakes. -/
def runSubagentEnded (st : WakeTrackerState) :
    List (Option JStr × Option JStr) → WakeTrackerState × List WakeCall
  | [] => (st, [])
  | (r, o) :: rest =>
    let step := handleSubagentEnded st r o
    let rr := runSubagentEnded step.1 rest
    (rr.1, step.2.toList ++ rr.2)

/-! ## Exporter message keys (`keys.ts`, exporter/reconciler)

`sha1Hex` is the Node crypto primitive, passed as a parameter. -/

/-- JS template interpolation `${params.occurredAtMs ?? ""}`. -/
def numOrEmpty : Option Int → JStr
  | some n => intToJStr n
  | none => []

/-- `buildSkMessageKey(params)`.  The JS guard `if (params.messageId)` is a
truthiness check: `undefined` and the empty string both fall through to the
hash form. -/
def buildSkMessageKey (sha1Hex : JStr → JStr) (sessionKey : JStr)
    (messageId : Option JStr) (role : JStr) (occurredAtMs : Option Int)
    (content : JStr) : JStr :=
  let hashForm := sessionKey ++ ":msg:".toList ++
    sha1Hex (role ++ '|' :: numOrEmpty occurredAtMs ++ '|' :: content)
  match messageId with
  | some m => if m = [] then hashForm else sessionKey ++ ':' :: m
  | none => hashForm

/-- `buildSkToolCallKey(sessionKey, toolCallId)`. -/
def buildSkToolCallKey (sessionKey toolCallId : JStr) : JStr :=
  sessionKey ++ ':' :: toolCallId

/-! ## SK-Sync external-ID canonicalization (`extensions/sk-sync`)

Thrown `Error`s are modelled as `none`.  The regexes
`^workitem:([^:]+):([^:]+)$` and `^task:([^:]+):([^:]+):([^:]+)$` are
modelled by splitting the remainder after the prefix on `':'` and requiring
exactly the right number of nonempty groups. -/

/-- `String.includes(":")`. -/
def hasColon : JStr → Bool
  | [] => false
  | c :: rest => c = ':' || hasColon rest

/-- `assertValidKey(label, value)` succeeds: non-empty, no `':'`. -/
def isValidKey (value : JStr) : Bool :=
  !value.isEmpty && !hasColon value

/-- `canonicalizeProjectExternalId(input)`. -/
def canonicalizeProjectExternalId (input : JStr) : Option (JStr × JStr) :=
  let raw := jsTrim input
  if raw.isEmpty then none
  else if jsStartsWith raw "project:".toList then
    let projectKey := raw.drop 8
    if isValidKey projectKey then some ("project:".toList ++ projectKey, projectKey)
    else none
  else if !hasColon raw then
    if isValidKey raw then some ("project:".toList ++ raw, raw) else none
  else none

/-- `canonicalizeWorkItemExternalId(input, projectKey)`; the result pair is
`(externalId, workItemKey)`. -/
def canonicalizeWorkItemExternalId (input projectKey : JStr) :
    Option (JStr × JStr) :=
  let raw := jsTrim input
  if raw.isEmpty then none
  else if jsStartsWith raw "workitem:".toList then
    match splitColon (raw.drop 9) with
    | [pKey, wKey] =>
      if pKey.isEmpty || wKey.isEmpty then none
      else if pKey ≠ projectKey then none
      else if isValidKey wKey then
        some ("workitem:".toList ++ pKey ++ ':' :: wKey, wKey)
      else none
    | _ => none
  else if !hasColon raw then
    if isValidKey raw then
      some ("workitem:".toList ++ projectKey ++ ':' :: raw, raw)
    else none
  else none

/-- `canonicalizeTaskExternalId(input, projectKey, workItemKey)`; the result
pair is `(externalId, taskKey)`. -/
def canonicalizeTaskExternalId (input projectKey workItemKey : JStr) :
    Option (JStr × JStr) :=
  let raw := jsTrim input
  if raw.isEmpty then none
  else if jsStartsWith raw "task:".toList then
    match splitColon (raw.drop 5) with
    | [pKey, wKey, tKey] =>
      if pKey.isEmpty || wKey.isEmpty || tKey.isEmpty then none
      else if pKey ≠ projectKey then none
      else if wKey ≠ workItemKey then none
      else if isValidKey tKey then
        some ("task:".toList ++ pKey ++ ':' :: wKey ++ ':' :: tKey, tKey)
      else none
    | _ => none
  else if !hasColon raw then
    if isValidKey raw then
      some ("task:".toList ++ projectKey ++ ':' :: workItemKey ++ ':' :: raw, raw)
    else none
  else none

/-- The claim's success form for work items: the trimmed input is exactly
`workitem:<projectKey>:<workItemKey>` with the declared project key and
colon-free, nonempty keys. -/
def matchesWorkItemForm (x projectKey : JStr) : Prop :=
  ∃ wKey, jsTrim x = "workitem:".toList ++ projectKey ++ ':' :: wKey ∧
    projectKey ≠ [] ∧ hasColon projectKey = false ∧
    wKey ≠ [] ∧ hasColon wKey = false

/-- Join with `':'` — left inverse of `splitColon`. -/
def joinColon : List JStr → JStr
  | [] => []
  | [g] => g
  | g :: gs => g ++ ':' :: joinColon gs

/-! ## Transcript parser (`parser.ts`, super-kanban-exporter)

`parseTranscriptLineToEvents` is modelled on the already-parsed JSON value:
the leading `JSON.parse(params.line)` (whose failure yields `null`) is the
quantification over `record : Json`.  `Date.parse` for string timestamps is
the external `dateParse` parameter. -/

structure SessionFileContext where
  sessionId : Option JStr
  agentId : Option JStr
  topicId : Option JStr
deriving DecidableEq, Repr

inductive SkToolCallStatus where
  | STARTED
  | SUCCEEDED
  | FAILED
deriving DecidableEq, Repr

structure SuperKanbanMessageRecord where
  sessionId : JStr
  agentId : Option JStr
  topicId : Option JStr
  messageId : Option JStr
  timestamp : Option Int
  role : JStr
  text : JStr
deriving DecidableEq, Repr

structure SuperKanbanToolCallRecord where
  sessionId : JStr
  agentId : Option JStr
  topicId : Option JStr
  messageId : Option JStr
  toolCallId : JStr
  toolName : Option JStr
  status : SkToolCallStatus
  timestamp : Option Int
  paramsText : Option JStr
  resultText : Option JStr
  errorText : Option JStr
deriving DecidableEq, Repr

structure TranscriptAttach where
  sessionId : JStr
  agentId : Option JStr
  topicId : Option JStr
deriving DecidableEq, Repr

structure ParsedTranscriptEvents where
  attach : TranscriptAttach
  messages : List SuperKanbanMessageRecord
  toolCalls : List SuperKanbanToolCallRecord
deriving DecidableEq, Repr

/-- `typeof v === "object"` together with the preceding truthiness guard
(`null` is typeof object but falsy; arrays are objects). -/
def isJsObject : Json → Bool
  | .obj _ => true
  | .arr _ => true
  | _ => false

/-- `normalizeType`: trimmed string, else `""`. -/
def normalizeType (v : Option Json) : JStr :=
  match v with
  | some (.str s) => jsTrim s
  | _ => []

def jsToLower (s : JStr) : JStr := s.map Char.toLower

/-- `normalizeTypeLower`. -/
def normalizeTypeLower (v : Option Json) : JStr :=
  jsToLower (normalizeType v)

/-- `coerceString`: trimmed nonempty string or `undefined`. -/
def coerceString (v : Option Json) : Option JStr :=
  match v with
  | some (.str s) =>
    let t := jsTrim s
    if t = [] then none else some t
  | _ => none

/-- `normalizeRole`. -/
def normalizeRole (v : Option Json) : JStr :=
  match v with
  | some (.str s) => jsTrim s
  | _ => []

/-- `coerceTimestampMs`: finite numbers are already ms; strings go through
`Date.parse` (the `dateParse` parameter); anything else is `undefined`. -/
def coerceTimestampMs (dateParse : JStr → Option Int) (v : Option Json) :
    Option Int :=
  match v with
  | some (.num n) => some n
  | some (.str s) => dateParse s
  | _ => none

/-- `record?.type !== "message"` (negated): the `type` field is exactly the
string `"message"`. -/
def isMessageType (record : Json) : Bool :=
  match record.getField "type".toList with
  | some (.str s) => s = "message".toList
  | _ => false

/-- `v === true` for a field value. -/
def isStrictTrue (v : Option Json) : Bool :=
  match v with
  | some (.bool true) => true
  | _ => false

/-- `extractTextBlocks(content)`. -/
def extractTextBlocks (content : Option Json) : List JStr :=
  match content with
  | some (.str s) =>
    let t := jsTrim s
    if t = [] then [] else [t]
  | some (.arr entries) =>
    entries.filterMap (fun entry =>
      if isJsObject entry then
        if normalizeTypeLower (entry.getField "type".toList) = "text".toList then
          match entry.getField "text".toList with
          | some (.str s) =>
            let t := jsTrim s
            if t = [] then none else some t
          | _ => none
        else none
      else none)
  | _ => []

/-- `texts.join("\n")`. -/
def joinNL : List JStr → JStr
  | [] => []
  | [s] => s
  | s :: rest => s ++ '\n' :: joinNL rest

def toolCallTypes : List JStr :=
  ["toolcall".toList, "tool_call".toList, "tool_use".toList]

def toolResultTypes : List JStr :=
  ["tool_result".toList, "tool_result_error".toList, "toolresult".toList]

/-- `buildToolCallId(fallbackPrefix, block, idx)`. -/
def buildToolCallId (fallbackPrefix : JStr) (block : Json) (idx : Nat) : JStr :=
  match coerceString (firstNonNullish
      [block.getField "id".toList, block.getField "toolCallId".toList,
        block.getField "tool_call_id".toList]) with
  | some id => id
  | none => fallbackPrefix ++ ':' :: natToJStr idx

/-- One assistant content block considered for a STARTED record
(step 2 of the parser). -/
def startedToolCallOfBlock (sessionId : JStr) (agentId topicId messageId : Option JStr)
    (timestamp : Option Int) (fallbackPrefix : JStr) (idx : Nat) (entry : Json) :
    Option SuperKanbanToolCallRecord :=
  if isJsObject entry then
    if toolCallTypes.contains (normalizeTypeLower (entry.getField "type".toList)) then
      let toolCallId := buildToolCallId fallbackPrefix entry idx
      let toolName := coerceString (firstNonNullish
        [entry.getField "name".toList, entry.getField "toolName".toList,
          entry.getField "tool_name".toList])
      let argsRaw := firstNonNullish
        [entry.getField "arguments".toList, entry.getField "args".toList,
          entry.getField "params".toList, entry.getField "input".toList]
      let paramsText : Option JStr :=
        match argsRaw with
        | some (.str s) => some s
        | some j => some (jsonStringify j)
        | none => none
      some ⟨sessionId, agentId, topicId, messageId, toolCallId, toolName,
        .STARTED, timestamp, paramsText, none, none⟩
    else none
  else none

/-- One assistant content block considered for an embedded tool-result
completion (step 3 of the parser). -/
def resultToolCallOfBlock (sessionId : JStr) (agentId topicId messageId : Option JStr)
    (timestamp : Option Int) (fallbackPrefix : JStr) (idx : Nat) (entry : Json) :
    Option SuperKanbanToolCallRecord :=
  if isJsObject entry then
    if toolResultTypes.contains (normalizeTypeLower (entry.getField "type".toList)) then
      let toolCallId := buildToolCallId fallbackPrefix entry idx
      let toolName := coerceString (firstNonNullish
        [entry.getField "name".toList, entry.getField "toolName".toList,
          entry.getField "tool_name".toList])
      let isError := isStrictTrue (entry.getField "is_error".toList) ||
        isStrictTrue (entry.getField "isError".toList)
      let content : Option JStr :=
        match coerceString (entry.getField "content".toList) with
        | some c => some c
        | none => coerceString (entry.getField "text".toList)
      some ⟨sessionId, agentId, topicId, messageId, toolCallId, toolName,
        (if isError then .FAILED else .SUCCEEDED), timestamp, none, content,
        (if isError then content else none)⟩
    else none
  else none

/-- `parseTranscriptLineToEvents({ctx, line})`, on the parsed record. -/
def parseTranscriptLineToEvents (dateParse : JStr → Option Int)
    (ctx : SessionFileContext) (record : Json) : Option ParsedTranscriptEvents :=
  match ctx.sessionId with
  | none => none
  | some sessionId =>
    if sessionId = [] then none
    else if ¬ isMessageType record then none
    else
      match record.getField "message".toList with
      | none => none
      | some msg =>
        if ¬ isJsObject msg then none
        else
          let role := normalizeRole (msg.getField "role".toList)
          let messageId := coerceString (record.getField "id".toList)
          let timestamp := coerceTimestampMs dateParse
            (record.getField "timestamp".toList)
          let attach : TranscriptAttach := ⟨sessionId, ctx.agentId, ctx.topicId⟩
          if role = "user".toList ∨ role = "assistant".toList then
            let texts := extractTextBlocks (msg.getField "content".toList)
            let text := jsTrim (joinNL texts)
            let messages : List SuperKanbanMessageRecord :=
              if text = [] then []
              else [⟨sessionId, ctx.agentId, ctx.topicId, messageId, timestamp,
                role, text⟩]
            let toolCalls : List SuperKanbanToolCallRecord :=
              if role = "assistant".toList then
                match msg.getField "content".toList with
                | some (.arr entries) =>
                  let fallbackPrefix := messageId.getD
                    (sessionId ++ ':' :: numOrEmpty timestamp)
                  (entries.enum.filterMap (fun p =>
                    startedToolCallOfBlock sessionId ctx.agentId ctx.topicId
                      messageId timestamp fallbackPrefix p.1 p.2)) ++
                  (entries.enum.filterMap (fun p =>
                    resultToolCallOfBlock sessionId ctx.agentId ctx.topicId
                      messageId timestamp fallbackPrefix p.1 p.2))
                | _ => []
              else []
            some ⟨attach, messages, toolCalls⟩
          else if role = "toolResult".toList ∨ role = "tool_result".toList then
            match (match coerceString (msg.getField "toolCallId".toList) with
              | some v => some v
              | none => coerceString (msg.getField "tool_call_id".toList)) with
            | none => some ⟨attach, [], []⟩
            | some toolCallId =>
              let toolName :=
                match coerceString (msg.getField "toolName".toList) with
                | some v => some v
                | none => coerceString (msg.getField "tool_name".toList)
              let isError := isStrictTrue (msg.getField "isError".toList) ||
                isStrictTrue (msg.getField "is_error".toList)
              let texts := extractTextBlocks (msg.getField "content".toList)
              let content := jsTrim (joinNL texts)
              let toolCalls : List SuperKanbanToolCallRecord :=
                [⟨sessionId, ctx.agentId, ctx.topicId, messageId, toolCallId,
                  toolName, (if isError then .FAILED else .SUCCEEDED), timestamp,
                  none, some content, (if isError then some content else none)⟩]
              let messages : List SuperKanbanMessageRecord :=
                if content = [] then []
                else [⟨sessionId, ctx.agentId, ctx.topicId, messageId, timestamp,
                  role, content⟩]
              some ⟨attach, messages, toolCalls⟩
          else
            some ⟨attach, [], []⟩

/-! ## Exporter tailer: first-discovery cursors (`service.ts`)

The per-file body of `scanAndEnqueue` plus `readAppendedJsonlLines`.  File
contents are byte lists; a missing file (failed `stat`) is `none`.  The 64
KiB chunked reads reassemble contiguous bytes and are modelled as direct
list traversal; the 2 MiB long-line guard is not modelled (it only affects
single lines longer than 2 MiB and never moves the cursor backwards). -/

abbrev FileBytes := List Nat

/-- Whitespace bytes for the `line.trim()` blank-line check. -/
def byteIsWs (b : Nat) : Bool :=
  b = 32 || b = 9 || b = 13 || b = 11 || b = 12

/-- `!line.trim()`: every byte is whitespace. -/
def lineIsBlank (l : FileBytes) : Bool := l.all byteIsWs

/-- The line-splitting loop of `readAppendedJsonlLines`: collect up to
`maxLines` non-blank newline-terminated lines; `consumed` counts bytes up to
and including the last consumed newline, `pos` counts all processed bytes. -/
def readLinesGo (maxLines : Nat) : FileBytes → FileBytes → List FileBytes →
    Nat → Nat → List FileBytes × Nat
  | [], _, acc, consumed, _ => (acc.reverse, consumed)
  | b :: rest, cur, acc, consumed, pos =>
    if acc.length ≥ maxLines then (acc.reverse, consumed)
    else if b = 10 then
      let line := cur.reverse
      let acc2 := if lineIsBlank line then acc else line :: acc
      readLinesGo maxLines rest [] acc2 (pos + 1) (pos + 1)
    else
      readLinesGo maxLines rest (b :: cur) acc consumed (pos + 1)

/-- `readAppendedJsonlLines({absPath, offset, maxLines})`. -/
def readAppendedJsonlLines (file : Option FileBytes) (offset maxLines : Nat) :
    List FileBytes × Nat :=
  match file with
  | none => ([], offset)
  | some content =>
    if offset ≥ content.length then ([], offset)
    else
      let r := readLinesGo maxLines (content.drop offset) [] [] 0 0
      (r.1, offset + r.2)

/-- The per-file body of the tailer's `scanAndEnqueue` loop: takes the
file's cursor entry and the current file state, returns the new cursor entry
and the lines handed to the parser this tick. -/
def scanFile (backfill : Bool) (cursor : Option Nat) (file : Option FileBytes) :
    Option Nat × List FileBytes :=
  match cursor, file with
  | none, some content =>
    if backfill then
      let r := readAppendedJsonlLines (some content) 0 200
      (if r.2 ≠ 0 then some r.2 else none, r.1)
    else
      (some content.length, [])
  | c, f =>
    let off := c.getD 0
    let r := readAppendedJsonlLines f off 200
    (if r.2 ≠ off then some r.2 else c, r.1)

/-- Successive tailer ticks over one file: the file state observed at each
tick, threading the cursor. -/
def tailScans (backfill : Bool) : Option Nat → List (Option FileBytes) →
    Option Nat × List (List FileBytes)
  | cursor, [] => (cursor, [])
  | cursor, f :: rest =>
    let r := scanFile backfill cursor f
    let rr := tailScans backfill r.1 rest
    (rr.1, r.2 :: rr.2)

end OpenClaw

namespace OpenClaw

theorem natToJStr_ne_nil (n : Nat) : natToJStr n ≠ [] := by
  unfold natToJStr
  split
  · simp
  · simp

theorem intToJStr_ne_nil (n : Int) : intToJStr n ≠ [] := by
  unfold intToJStr
  split
  · simp
  · exact natToJStr_ne_nil _

theorem utf8Len_pos (s : JStr) (h : s ≠ []) : 0 < utf8Len s := by
  cases s with
  | nil => exact absurd rfl h
  | cons c rest =>
    have hc : 0 < c.utf8Size := Char.utf8Size_pos c
    simp [utf8Len]
    omega

/-- `jsTrim` keeps a string unchanged when both end characters are
non-whitespace (or the string is empty). -/
theorem jsTrim_eq_self (s : JStr) (h1 : ∀ c, s.head? = some c → jsIsWs c = false)
    (h2 : ∀ c, s.getLast? = some c → jsIsWs c = false) : jsTrim s = s := by
  unfold jsTrim
  cases s with
  | nil => rfl
  | cons a rest =>
    have ha : jsIsWs a = false := h1 a rfl
    rw [List.dropWhile_cons, ha]
    simp only [Bool.false_eq_true, if_false]
    cases hrev : (a :: rest).reverse with
    | nil => simp at hrev
    | cons b tail =>
      have hb : jsIsWs b = false := by
        apply h2
        rw [List.getLast?_eq_head?_reverse, hrev]
        rfl
      rw [List.dropWhile_cons, hb]
      simp only [Bool.false_eq_true, if_false]
      rw [← hrev, List.reverse_reverse]

theorem splitColon_ne_nil (s : JStr) : splitColon s ≠ [] := by
  cases s with
  | nil => simp [splitColon]
  | cons c rest =>
    unfold splitColon
    split
    · simp
    · split <;> simp

theorem jsonStringify_ne_nil (j : Json) : jsonStringify j ≠ [] := by
  cases j with
  | null => simp [jsonStringify]
  | bool b => cases b <;> simp [jsonStringify]
  | num n => exact intToJStr_ne_nil n
  | str s => simp [jsonStringify, jsonQuote]
  | arr es => simp [jsonStringify]
  | obj fs => simp [jsonStringify]

/-- The serialized frame occupies at least one byte. -/
theorem utf8Len_jsonStringify_pos (j : Json) : 0 < utf8Len (jsonStringify j) :=
  utf8Len_pos _ (jsonStringify_ne_nil j)

/-- **C1.** For every call to the backpressure-guarded JSON send with limit
`maxBufferedBytes`: if the socket's `bufferedAmount` read before
serialization exceeds the limit, the frame is not serialized (the outcome is
independent of the frame object) and the socket is closed with code 1008,
reason `"slow consumer"`, closeCause `"ws-backpressure"` and metadata phase
`"pre-stringify"`; otherwise, if `bufferedAmount` plus the serialized
frame's byte length exceeds the limit, the socket is closed the same way
with phase `"pre-send"` and `frameBytes` recorded; otherwise the frame is
sent.  In particular, whenever `bufferedAmount ≥ maxBufferedBytes` at the
time of the call, the socket is closed (with code 1008 / `"slow consumer"`)
and the frame is never written. -/
theorem wsJsonSend_backpressure_guard (maxB buf : Nat) (obj : Json) :
    (buf > maxB →
      wsJsonSend maxB buf obj =
        .closed ⟨1008, "slow consumer".toList⟩
          ⟨"ws-backpressure".toList, maxB, buf, "pre-stringify".toList, buf, none⟩ ∧
      ∀ obj2, wsJsonSend maxB buf obj2 = wsJsonSend maxB buf obj) ∧
    (¬ buf > maxB → buf + utf8Len (jsonStringify obj) > maxB →
      wsJsonSend maxB buf obj =
        .closed ⟨1008, "slow consumer".toList⟩
          ⟨"ws-backpressure".toList, maxB, buf, "pre-send".toList, buf,
            some (utf8Len (jsonStringify obj))⟩) ∧
    (¬ buf > maxB → ¬ buf + utf8Len (jsonStringify obj) > maxB →
      wsJsonSend maxB buf obj = .sent (jsonStringify obj)) ∧
    (buf ≥ maxB →
      ∃ cause, wsJsonSend maxB buf obj = .closed ⟨1008, "slow consumer".toList⟩ cause) := by
  refine ⟨fun h => ⟨?_, fun obj2 => ?_⟩, fun h1 h2 => ?_, fun h1 h2 => ?_, fun h => ?_⟩
  · simp [wsJsonSend, h]
  · simp [wsJsonSend, h]
  · simp only [wsJsonSend, if_neg h1, if_pos h2]
  · simp only [wsJsonSend, if_neg h1, if_neg h2]
  · by_cases hgt : buf > maxB
    · exact ⟨⟨"ws-backpressure".toList, maxB, buf, "pre-stringify".toList, buf, none⟩,
        by simp [wsJsonSend, hgt]⟩
    · have heq : buf = maxB := Nat.le_antisymm (Nat.not_lt.mp hgt) h
      have hpos : 0 < utf8Len (jsonStringify obj) := utf8Len_jsonStringify_pos obj
      have hover : buf + utf8Len (jsonStringify obj) > maxB := by omega
      exact ⟨⟨"ws-backpressure".toList, maxB, buf, "pre-send".toList, buf,
          some (utf8Len (jsonStringify obj))⟩,
        by simp only [wsJsonSend, if_neg hgt, if_pos hover]⟩

/-- Witness for C1 at concrete inputs (limit 10; buffers 11, 8, 3, 10;
`null` frame of 4 bytes). -/
theorem wsJsonSend_backpressure_guard_witness :
    wsJsonSend 10 11 .null =
        .closed ⟨1008, "slow consumer".toList⟩
          ⟨"ws-backpressure".toList, 10, 11, "pre-stringify".toList, 11, none⟩ ∧
    wsJsonSend 10 11 (.num 5) = wsJsonSend 10 11 .null ∧
    wsJsonSend 10 8 .null =
        .closed ⟨1008, "slow consumer".toList⟩
          ⟨"ws-backpressure".toList, 10, 8, "pre-send".toList, 8,
            some (utf8Len (jsonStringify .null))⟩ ∧
    wsJsonSend 10 3 .null = .sent (jsonStringify .null) ∧
    (∃ cause, wsJsonSend 10 10 .null = .closed ⟨1008, "slow consumer".toList⟩ cause) :=
  ⟨((wsJsonSend_backpressure_guard 10 11 .null).1 (by decide)).1,
   ((wsJsonSend_backpressure_guard 10 11 .null).1 (by decide)).2 (.num 5),
   (wsJsonSend_backpressure_guard 10 8 .null).2.1 (by decide) (by decide),
   (wsJsonSend_backpressure_guard 10 3 .null).2.2.1 (by decide) (by decide),
   (wsJsonSend_backpressure_guard 10 10 .null).2.2.2 (by decide)⟩

/-- One `markGatewayReadinessPhase` step preserves: last entry mirrors the
held phase, timestamps non-decreasing, adjacent phases distinct. -/
theorem markGatewayReadinessPhase_step (st : GatewayReadinessSnapshot) (tL : Int)
    (p : GatewayReadinessPhase) (now : Int)
    (hlast : st.phases.getLast? = some (st.phase, tL))
    (hmono : phasesTimesMono st.phases)
    (hadj : phasesAdjDistinct st.phases)
    (hle : tL ≤ now) :
    ∃ tL2, tL2 ≤ max tL now ∧
      (markGatewayReadinessPhase st p now).phases.getLast? =
        some ((markGatewayReadinessPhase st p now).phase, tL2) ∧
      phasesTimesMono (markGatewayReadinessPhase st p now).phases ∧
      phasesAdjDistinct (markGatewayReadinessPhase st p now).phases := by
  unfold markGatewayReadinessPhase
  by_cases hp : st.phase = p
  · refine ⟨tL, le_max_left _ _, ?_, ?_, ?_⟩ <;> simp [hp, hlast, hmono, hadj]
  · refine ⟨now, le_max_right _ _, ?_, ?_, ?_⟩
    · simp [hp]
    · simp only [if_neg hp, phasesTimesMono]
      rw [List.chain'_append]
      refine ⟨hmono, List.chain'_singleton _, ?_⟩
      intro x hx y hy
      rw [hlast] at hx
      simp at hx hy
      rw [← hx, ← hy]
      exact hle
    · simp only [if_neg hp, phasesAdjDistinct]
      rw [List.chain'_append]
      refine ⟨hadj, List.chain'_singleton _, ?_⟩
      intro x hx y hy
      rw [hlast] at hx
      simp at hx hy
      rw [← hx, ← hy]
      exact hp

/-- Invariant propagation along a call sequence whose times are pairwise
non-decreasing and bounded below by the current last timestamp. -/
theorem runReadiness_inv (calls : List (GatewayReadinessPhase × Int)) :
    ∀ (st : GatewayReadinessSnapshot) (tL : Int),
    st.phases.getLast? = some (st.phase, tL) →
    phasesTimesMono st.phases →
    phasesAdjDistinct st.phases →
    List.Pairwise (fun a b => a.2 ≤ b.2) calls →
    (∀ c ∈ calls, tL ≤ c.2) →
    ∃ tL2, (runReadiness st calls).phases.getLast? =
        some ((runReadiness st calls).phase, tL2) ∧
      phasesTimesMono (runReadiness st calls).phases ∧
      phasesAdjDistinct (runReadiness st calls).phases := by
  induction calls with
  | nil => intro st tL hlast hmono hadj _ _; exact ⟨tL, hlast, hmono, hadj⟩
  | cons c rest ih =>
    intro st tL hlast hmono hadj hpair hge
    have hle : tL ≤ c.2 := hge c (List.mem_cons_self c rest)
    obtain ⟨tL1, htL1, hlast1, hmono1, hadj1⟩ :=
      markGatewayReadinessPhase_step st tL c.1 c.2 hlast hmono hadj hle
    have hrest : ∀ r ∈ rest, tL1 ≤ r.2 := by
      intro r hr
      have h1 : c.2 ≤ r.2 := (List.pairwise_cons.mp hpair).1 r hr
      have h2 : tL1 ≤ c.2 := le_trans htL1 (max_le hle le_rfl)
      exact le_trans h2 h1
    have := ih (markGatewayReadinessPhase st c.1 c.2) tL1 hlast1 hmono1 hadj1
      (List.pairwise_cons.mp hpair).2 hrest
    simpa [runReadiness, List.foldl_cons] using this

/-- **C8 (amended).** Re-marking the currently held phase is a no-op; for any
state reached from the initial state by calls whose `Date.now` readings are
non-decreasing and not earlier than the initial reading, the `phases` list
has non-decreasing timestamps and no two *adjacent* entries share a phase
value.  (The original claim that each distinct non-initial phase value
appears at most once fails: a phase may be revisited after an intervening
different phase, see the counterexample.) -/
theorem markGatewayReadinessPhase_props (t0 : Int)
    (calls : List (GatewayReadinessPhase × Int))
    (hchain : List.Chain' (fun a b => a.2 ≤ b.2) calls)
    (hge : ∀ c ∈ calls, t0 ≤ c.2) :
    (∀ st now, markGatewayReadinessPhase st st.phase now = st) ∧
    phasesTimesMono (runReadiness (initialReadiness t0) calls).phases ∧
    phasesAdjDistinct (runReadiness (initialReadiness t0) calls).phases := by
  have hpair : List.Pairwise (fun (a b : GatewayReadinessPhase × Int) => a.2 ≤ b.2) calls := by
    haveI : IsTrans (GatewayReadinessPhase × Int) (fun a b => a.2 ≤ b.2) :=
      ⟨fun _ _ _ hab hbc => le_trans hab hbc⟩
    rw [List.chain'_iff_pairwise] at hchain
    exact hchain
  have hinit : (initialReadiness t0).phases.getLast? =
      some ((initialReadiness t0).phase, t0) := by
    simp [initialReadiness]
  obtain ⟨tL2, _, hmono, hadj⟩ := runReadiness_inv calls (initialReadiness t0) t0 hinit
    (by simp [initialReadiness, phasesTimesMono])
    (by simp [initialReadiness, phasesAdjDistinct])
    hpair hge
  refine ⟨fun st now => ?_, hmono, hadj⟩
  simp [markGatewayReadinessPhase]

/-- Witness for C8 at `t0 = 0` and calls `listening@1`, `ready@2`. -/
theorem markGatewayReadinessPhase_props_witness :
    markGatewayReadinessPhase (initialReadiness 0) (initialReadiness 0).phase 7 =
        initialReadiness 0 ∧
    phasesTimesMono (runReadiness (initialReadiness 0)
        [(.listening, 1), (.ready, 2)]).phases ∧
    phasesAdjDistinct (runReadiness (initialReadiness 0)
        [(.listening, 1), (.ready, 2)]).phases :=
  ⟨(markGatewayReadinessPhase_props 0 [(.listening, 1), (.ready, 2)]
      (by norm_num [List.chain'_cons]) (by norm_num)).1 (initialReadiness 0) 7,
   (markGatewayReadinessPhase_props 0 [(.listening, 1), (.ready, 2)]
      (by norm_num [List.chain'_cons]) (by norm_num)).2.1,
   (markGatewayReadinessPhase_props 0 [(.listening, 1), (.ready, 2)]
      (by norm_num [List.chain'_cons]) (by norm_num)).2.2⟩

/-- **C8 counterexample.** From the initial state, the call sequence
`listening@1`, `starting@2`, `listening@3` is accepted (only immediate
repetition is guarded), producing phases
`starting, listening, starting, listening` — the non-initial value
`listening` appears twice, refuting the at-most-once part of the claim. -/
theorem markGatewayReadinessPhase_distinct_counterexample :
    ¬ readinessDistinctClaim (runReadiness (initialReadiness 0)
        [(.listening, 1), (.starting, 2), (.listening, 3)]) := by
  intro h
  have := h .listening (by decide)
  revert this
  decide

/-! ### Voice-dedupe map lemmas -/

theorem mapGet_eq_none_iff {β : Type} (k : JStr) (m : List (JStr × β)) :
    mapGet k m = none ↔ ∀ p ∈ m, p.1 ≠ k := by
  induction m with
  | nil => simp [mapGet]
  | cons q rest ih =>
    obtain ⟨a, v⟩ := q
    by_cases ha : a = k
    · rw [mapGet, if_pos ha]
      constructor
      · intro h; exact Option.noConfusion h
      · intro h; exact absurd ha (h (a, v) (List.mem_cons_self _ _))
    · rw [mapGet, if_neg ha, ih]
      constructor
      · intro h p hp
        rcases List.mem_cons.mp hp with h1 | h1
        · rw [h1]; exact ha
        · exact h p h1
      · intro h p hp
        exact h p (List.mem_cons_of_mem _ hp)

theorem mapGet_mem {β : Type} (k : JStr) (v : β) :
    ∀ m : List (JStr × β), mapGet k m = some v → (k, v) ∈ m := by
  intro m
  induction m with
  | nil => intro h; simp [mapGet] at h
  | cons q rest ih =>
    intro h
    obtain ⟨a, b⟩ := q
    by_cases ha : a = k
    · rw [mapGet, if_pos ha] at h
      simp at h
      simp [ha, h]
    · rw [mapGet, if_neg ha] at h
      exact List.mem_cons_of_mem _ (ih h)

theorem mapGet_append_tail {β : Type} (k : JStr) (v : β) :
    ∀ l : List (JStr × β), (∀ p ∈ l, p.1 ≠ k) → mapGet k (l ++ [(k, v)]) = some v := by
  intro l
  induction l with
  | nil => intro _; simp [mapGet]
  | cons p rest ih =>
    intro h
    obtain ⟨a, b⟩ := p
    have ha : a ≠ k := h (a, b) (by simp)
    rw [List.cons_append, mapGet, if_neg ha]
    exact ih (fun q hq => h q (by simp [hq]))

theorem mapDelete_mem {β : Type} (k : JStr) (m : List (JStr × β)) :
    ∀ p ∈ mapDelete k m, p.1 ≠ k ∧ p ∈ m := by
  intro p hp
  unfold mapDelete at hp
  rw [List.mem_filter] at hp
  refine ⟨by simpa using hp.2, hp.1⟩

theorem mapDelete_append_tail {β : Type} (k : JStr) (v : β) (l : List (JStr × β))
    (h : ∀ p ∈ l, p.1 ≠ k) : mapDelete k (l ++ [(k, v)]) = l := by
  unfold mapDelete
  rw [List.filter_append]
  have h1 : l.filter (fun p => ¬ p.1 = k) = l := by
    rw [List.filter_eq_self]
    intro p hp
    simpa using h p hp
  have h2 : [((k : JStr), v)].filter (fun p => ¬ p.1 = k) = [] := by simp
  rw [h1, h2, List.append_nil]

theorem evictOldest_tail {β : Type} (max : Nat) (hmax : 1 ≤ max) (k : JStr) (v : β) :
    ∀ l : List (JStr × β), ∃ l2, evictOldest max (l ++ [(k, v)]) = l2 ++ [(k, v)] ∧
      ∀ p ∈ l2, p ∈ l := by
  intro l
  induction l with
  | nil =>
    refine ⟨[], ?_, by simp⟩
    unfold evictOldest
    simp
    omega
  | cons q rest ih =>
    rw [List.cons_append]
    unfold evictOldest
    by_cases hlen : (q :: (rest ++ [(k, v)])).length > max
    · rw [if_pos hlen]
      by_cases hq : q.1 = []
      · exact ⟨q :: rest, by rw [← List.cons_append]; cases q; simp at hq; simp [hq], by simp⟩
      · obtain ⟨l2, hl2, hsub⟩ := ih
        refine ⟨l2, ?_, fun p hp => by simp [hsub p hp]⟩
        cases q
        simp only at hq
        simp [hq, hl2]
    · rw [if_neg hlen]
      exact ⟨q :: rest, rfl, by simp⟩

theorem pruneExpired_subset (now w : Int) (l : VoiceDedupeChatState) :
    ∀ p ∈ pruneExpired now w l, p ∈ l := by
  induction l with
  | nil => simp [pruneExpired]
  | cons q rest ih =>
    intro p hp
    unfold pruneExpired at hp
    by_cases hq : now - q.2 ≤ w
    · cases q; rw [if_pos hq] at hp; exact hp
    · cases q
      simp only at hq
      rw [if_neg hq] at hp
      exact List.mem_cons_of_mem _ (ih p hp)

theorem pruneExpired_tail (now w ts : Int) (k : JStr) (hts : now - ts ≤ w) :
    ∀ l : VoiceDedupeChatState, ∃ l2,
      pruneExpired now w (l ++ [(k, ts)]) = l2 ++ [(k, ts)] ∧ ∀ p ∈ l2, p ∈ l := by
  intro l
  induction l with
  | nil => exact ⟨[], by simp [pruneExpired, hts], by simp⟩
  | cons q rest ih =>
    obtain ⟨a, b⟩ := q
    by_cases hq : now - b ≤ w
    · refine ⟨(a, b) :: rest, ?_, by simp⟩
      rw [List.cons_append]
      simp only [pruneExpired]
      rw [if_pos hq]
    · obtain ⟨l2, hl2, hsub⟩ := ih
      refine ⟨l2, ?_, fun p hp => List.mem_cons_of_mem _ (hsub p hp)⟩
      rw [List.cons_append]
      simp only [pruneExpired]
      rw [if_neg hq]
      exact hl2

theorem mapGet_setInPlace {β : Type} (k : JStr) (v : β) :
    ∀ m : List (JStr × β), (∃ x, mapGet k m = some x) →
    mapGet k (mapSetInPlace k v m) = some v := by
  intro m
  induction m with
  | nil => intro h; obtain ⟨x, hx⟩ := h; simp [mapGet] at hx
  | cons q rest ih =>
    intro h
    obtain ⟨x, hx⟩ := h
    obtain ⟨a, b⟩ := q
    by_cases ha : a = k
    · have hcond : ((a, b) : JStr × β).1 = k := ha
      simp only [mapSetInPlace, List.map_cons]
      rw [if_pos hcond, mapGet, if_pos rfl]
    · rw [mapGet, if_neg ha] at hx
      simp only [mapSetInPlace, List.map_cons]
      rw [if_neg (by simpa using ha)]
      rw [mapGet, if_neg ha]
      exact ih ⟨x, hx⟩

theorem touchChat_get (k : JStr) (st : VoiceDedupeChatState) (m : VoiceDedupeByChat) :
    mapGet k (touchChat k st m) = some st := by
  unfold touchChat mapSetTail
  obtain ⟨l2, hl2, hsub⟩ := evictOldest_tail 500 (by omega) k st (mapDelete k m)
  rw [hl2]
  exact mapGet_append_tail k st l2
    (fun p hp => (mapDelete_mem k m p (hsub p hp)).1)

theorem touchFingerprint_shape (st : VoiceDedupeChatState) (fp : JStr) (ts : Int) :
    ∃ l2, touchFingerprint st fp ts = l2 ++ [(fp, ts)] ∧
      (∀ p ∈ l2, p.1 ≠ fp) ∧ (∀ p ∈ l2, p ∈ st) := by
  unfold touchFingerprint mapSetTail
  obtain ⟨l2, hl2, hsub⟩ := evictOldest_tail 50 (by omega) fp ts (mapDelete fp st)
  exact ⟨l2, hl2,
    fun p hp => (mapDelete_mem fp st p (hsub p hp)).1,
    fun p hp => (mapDelete_mem fp st p (hsub p hp)).2⟩

/-- Fresh-fingerprint call: returns `false` and stores the fingerprint with
the call's `now`. -/
theorem shouldDedupe_fresh (m : VoiceDedupeByChat) (a c fp : JStr) (now w : Int)
    (habs : mapGet fp ((mapGet (a ++ ':' :: c) m).getD []) = none) :
    (shouldDedupeTelegramVoiceSend m a c fp now w).1 = false ∧
    chatHasFp (shouldDedupeTelegramVoiceSend m a c fp now w).2 (a ++ ':' :: c) fp now := by
  have habs1 : mapGet fp (pruneExpired now w ((mapGet (a ++ ':' :: c) m).getD [])) = none := by
    rw [mapGet_eq_none_iff] at habs ⊢
    exact fun p hp => habs p (pruneExpired_subset now w _ p hp)
  simp only [shouldDedupeTelegramVoiceSend, habs1]
  refine ⟨trivial, ?_⟩
  obtain ⟨l2, hl2, hne, _⟩ :=
    touchFingerprint_shape (pruneExpired now w ((mapGet (a ++ ':' :: c) m).getD [])) fp now
  refine ⟨l2, ?_, hne⟩
  rw [← hl2]
  exact mapGet_setInPlace _ _ _ ⟨_, touchChat_get (a ++ ':' :: c) _ m⟩

/-- Duplicate call inside the window: returns `true` and keeps the *stored*
timestamp (only the LRU position is refreshed). -/
theorem shouldDedupe_dup (m : VoiceDedupeByChat) (a c fp : JStr) (t now w : Int)
    (hhas : chatHasFp m (a ++ ':' :: c) fp t) (hin : now - t ≤ w) :
    (shouldDedupeTelegramVoiceSend m a c fp now w).1 = true ∧
    chatHasFp (shouldDedupeTelegramVoiceSend m a c fp now w).2 (a ++ ':' :: c) fp t := by
  obtain ⟨l, hget, hne⟩ := hhas
  obtain ⟨l2, hprune, hsub⟩ := pruneExpired_tail now w t fp hin l
  have hfind : mapGet fp (l2 ++ [(fp, t)]) = some t :=
    mapGet_append_tail fp t l2 (fun p hp => hne p (hsub p hp))
  simp only [shouldDedupeTelegramVoiceSend, hget, Option.getD_some, hprune, hfind, if_pos hin]
  refine ⟨trivial, ?_⟩
  obtain ⟨l3, hl3, hne3, _⟩ := touchFingerprint_shape (l2 ++ [(fp, t)]) fp t
  refine ⟨l3, ?_, hne3⟩
  rw [← hl3]
  exact mapGet_setInPlace _ _ _ ⟨_, touchChat_get (a ++ ':' :: c) _ m⟩

/-- Call after the window has elapsed since the *stored* timestamp: returns
`false` again. -/
theorem shouldDedupe_expired (m : VoiceDedupeByChat) (a c fp : JStr) (t now w : Int)
    (hhas : chatHasFp m (a ++ ':' :: c) fp t) (hout : ¬ now - t ≤ w) :
    (shouldDedupeTelegramVoiceSend m a c fp now w).1 = false := by
  obtain ⟨l, hget, hne⟩ := hhas
  cases hfind : mapGet fp (pruneExpired now w (l ++ [(fp, t)])) with
  | none => simp only [shouldDedupeTelegramVoiceSend, hget, Option.getD_some, hfind]
  | some ts =>
    have hmem := mapGet_mem _ _ _ hfind
    have hmem2 : ((fp, ts) : JStr × Int) ∈ l ++ [(fp, t)] :=
      pruneExpired_subset now w _ _ hmem
    have hts : ts = t := by
      rw [List.mem_append] at hmem2
      cases hmem2 with
      | inl h => exact absurd rfl (hne _ h)
      | inr h => simpa using h
    rw [hts] at hfind
    simp only [shouldDedupeTelegramVoiceSend, hget, Option.getD_some, hfind, if_neg hout]

/-- **C5.** For two successive `shouldDedupe` calls with the same
`(accountId, chatId, fingerprint)`, where the fingerprint is not stored at
the first call and the calls' `now` readings differ by at most `windowMs`:
the first call returns `false`, the second returns `true`. -/
theorem shouldDedupe_window_pair (m : VoiceDedupeByChat) (a c fp : JStr)
    (now1 now2 w : Int)
    (habs : mapGet fp ((mapGet (a ++ ':' :: c) m).getD []) = none)
    (hclose : |now2 - now1| ≤ w) :
    (shouldDedupeTelegramVoiceSend m a c fp now1 w).1 = false ∧
    (shouldDedupeTelegramVoiceSend
      (shouldDedupeTelegramVoiceSend m a c fp now1 w).2 a c fp now2 w).1 = true := by
  obtain ⟨h1, hinv⟩ := shouldDedupe_fresh m a c fp now1 w habs
  have hin : now2 - now1 ≤ w := le_trans (le_abs_self _) hclose
  exact ⟨h1, (shouldDedupe_dup _ a c fp now1 now2 w hinv hin).1⟩

/-- Witness for C5: empty initial map, window 10, calls at 0 and 7. -/
theorem shouldDedupe_window_pair_witness :
    (shouldDedupeTelegramVoiceSend [] "a".toList "c".toList "f".toList 0 10).1 = false ∧
    (shouldDedupeTelegramVoiceSend
      (shouldDedupeTelegramVoiceSend [] "a".toList "c".toList "f".toList 0 10).2
      "a".toList "c".toList "f".toList 7 10).1 = true :=
  shouldDedupe_window_pair [] "a".toList "c".toList "f".toList 0 7 10 (by rfl) (by decide)

/-- **C10.** A duplicate hit refreshes only the LRU position, never the
stored timestamp: starting from a fresh insert at `t0`, any number of
duplicate calls at times within `windowMs` of `t0` all return `true` and
leave the stored timestamp at `t0`; a further call more than `windowMs`
after `t0` returns `false` again, regardless of the duplicates in between. -/
theorem shouldDedupe_keeps_insert_timestamp (m : VoiceDedupeByChat) (a c fp : JStr)
    (w t0 : Int) (ns : List Int) (now2 : Int)
    (habs : mapGet fp ((mapGet (a ++ ':' :: c) m).getD []) = none)
    (hns : ∀ n ∈ ns, n - t0 ≤ w)
    (hexp : ¬ now2 - t0 ≤ w) :
    (runVoiceDedupe m a c fp w (t0 :: ns ++ [now2])).1 =
      false :: ns.map (fun _ => true) ++ [false] ∧
    chatHasFp (runVoiceDedupe m a c fp w (t0 :: ns)).2 (a ++ ':' :: c) fp t0 := by
  obtain ⟨h1, hinv0⟩ := shouldDedupe_fresh m a c fp t0 w habs
  have main : ∀ (ns2 : List Int) (m2 : VoiceDedupeByChat),
      chatHasFp m2 (a ++ ':' :: c) fp t0 → (∀ n ∈ ns2, n - t0 ≤ w) →
      (runVoiceDedupe m2 a c fp w (ns2 ++ [now2])).1 =
        ns2.map (fun _ => true) ++ [false] ∧
      chatHasFp (runVoiceDedupe m2 a c fp w ns2).2 (a ++ ':' :: c) fp t0 := by
    intro ns2
    induction ns2 with
    | nil =>
      intro m2 hinv _
      refine ⟨?_, hinv⟩
      simp only [List.nil_append, List.map_nil, runVoiceDedupe]
      rw [shouldDedupe_expired m2 a c fp t0 now2 w hinv hexp]
    | cons n rest ih =>
      intro m2 hinv hall
      have hn : n - t0 ≤ w := hall n (by simp)
      obtain ⟨hb, hinv2⟩ := shouldDedupe_dup m2 a c fp t0 n w hinv hn
      have hrest := ih _ hinv2 (fun x hx => hall x (by simp [hx]))
      constructor
      · rw [List.cons_append]
        simp only [runVoiceDedupe]
        rw [hb, hrest.1]
        simp
      · simp only [runVoiceDedupe]
        exact hrest.2
  have hmain := main ns _ hinv0 hns
  constructor
  · rw [List.cons_append]
    simp only [runVoiceDedupe]
    rw [h1, hmain.1]
    rfl
  · simp only [runVoiceDedupe]
    exact hmain.2

/-! ### Wake-parent tracker lemmas -/

theorem mapGet_mapDelete {β : Type} (k : JStr) :
    ∀ m : List (JStr × β), mapGet k (mapDelete k m) = none := by
  intro m
  rw [mapGet_eq_none_iff]
  exact fun p hp => (mapDelete_mem k m p hp).1

theorem mapGet_mapDelete_none {β : Type} (k r : JStr) (m : List (JStr × β))
    (h : mapGet r m = none) : mapGet r (mapDelete k m) = none := by
  rw [mapGet_eq_none_iff] at h ⊢
  exact fun p hp => h p (mapDelete_mem k m p hp).2

/-- A wake is only issued for the invocation's own `runId`, on a present
entry, and the new state is exactly the old one with that entry deleted. -/
theorem handleSubagentEnded_some (st : WakeTrackerState) (rid o : Option JStr)
    (w : WakeCall) (h : (handleSubagentEnded st rid o).2 = some w) :
    rid = some w.runId ∧ (∃ e, mapGet w.runId st = some e) ∧
    (handleSubagentEnded st rid o).1 = mapDelete w.runId st := by
  match rid with
  | none => simp [handleSubagentEnded] at h
  | some r =>
    by_cases hr : r = []
    · simp [handleSubagentEnded, hr] at h
    · cases hg : mapGet r st with
      | none => simp [handleSubagentEnded, hr, hg] at h
      | some entry =>
        by_cases hw : entry.wakeParentOnEnd
        · simp only [handleSubagentEnded, if_neg hr, hg, hw, not_true_eq_false,
            if_false] at h ⊢
          have hwv : w = ⟨r, entry.parentSessionKey, "sk-sync-wake".toList,
              wakeMessage r entry o⟩ := by
            injection h with hh
            exact hh.symm
          subst hwv
          exact ⟨rfl, ⟨entry, hg⟩, rfl⟩
        · simp [handleSubagentEnded, hr, hg, hw] at h

/-- The tracker state after any invocation still lacks every `runId` that
was already absent (`handleSubagentEnded` never adds entries). -/
theorem handleSubagentEnded_preserves_absent (st : WakeTrackerState)
    (rid o : Option JStr) (r : JStr) (h : mapGet r st = none) :
    mapGet r (handleSubagentEnded st rid o).1 = none := by
  match rid with
  | none => exact h
  | some r2 =>
    simp only [handleSubagentEnded]
    by_cases hr : r2 = []
    · rw [if_pos hr]; exact h
    · rw [if_neg hr]
      cases hg : mapGet r2 st with
      | none => simp only [hg]; exact h
      | some entry =>
        simp only [hg]
        by_cases hw : entry.wakeParentOnEnd
        · simp only [hw, not_true_eq_false, if_false]
          exact mapGet_mapDelete_none r2 r st h
        · simp only [hw, not_false_eq_true, if_true]
          exact h

/-- No wake for `r` is ever issued from a state lacking an entry for `r`. -/
theorem runSubagentEnded_absent (r : JStr)
    (evs : List (Option JStr × Option JStr)) :
    ∀ st : WakeTrackerState, mapGet r st = none →
    ((runSubagentEnded st evs).2.countP (fun w => w.runId = r)) = 0 := by
  induction evs with
  | nil => intro st _; simp [runSubagentEnded]
  | cons e rest ih =>
    intro st habs
    obtain ⟨rid, o⟩ := e
    simp only [runSubagentEnded]
    rw [List.countP_append]
    have hstep := handleSubagentEnded_preserves_absent st rid o r habs
    have hrest := ih _ hstep
    have hhead : (handleSubagentEnded st rid o).2.toList.countP
        (fun w => w.runId = r) = 0 := by
      cases hw : (handleSubagentEnded st rid o).2 with
      | none => simp
      | some w =>
        obtain ⟨hrid, ⟨e2, he2⟩, _⟩ := handleSubagentEnded_some st rid o w hw
        by_cases hwr : w.runId = r
        · rw [hwr] at he2
          rw [he2] at habs
          exact Option.noConfusion habs
        · simp [hwr]
    rw [hhead, hrest]

/-- **C4.** Across any sequence of `handleSubagentEnded` invocations from any
tracker state (in particular one populated by `trackSpawn`), the wake-parent
RPC for a given `runId` is issued at most once; whenever a wake is issued
the entry is removed (the deletion precedes the RPC in the source, and the
returned state does not depend on the RPC's success), so any later
invocation with the same `runId` issues no RPC. -/
theorem handleSubagentEnded_wake_at_most_once (st : WakeTrackerState) (r : JStr)
    (evs : List (Option JStr × Option JStr)) :
    ((runSubagentEnded st evs).2.countP (fun w => w.runId = r)) ≤ 1 ∧
    (∀ o st2 w, handleSubagentEnded st (some r) o = (st2, some w) →
      mapGet r st2 = none ∧
      ∀ o2, handleSubagentEnded st2 (some r) o2 = (st2, none)) := by
  constructor
  · induction evs generalizing st with
    | nil => simp [runSubagentEnded]
    | cons e rest ih =>
      obtain ⟨rid, o⟩ := e
      simp only [runSubagentEnded]
      rw [List.countP_append]
      cases hw : (handleSubagentEnded st rid o).2 with
      | none =>
        simp only [Option.toList_none, List.countP_nil, Nat.zero_add]
        exact ih _
      | some w =>
        obtain ⟨hrid, ⟨e2, he2⟩, hdel⟩ := handleSubagentEnded_some st rid o w hw
        by_cases hwr : w.runId = r
        · have habs : mapGet r (handleSubagentEnded st rid o).1 = none := by
            rw [hdel, hwr]
            exact mapGet_mapDelete r st
          rw [runSubagentEnded_absent r rest _ habs]
          simp [hwr]
        · have : (some w).toList.countP (fun w2 => w2.runId = r) = 0 := by simp [hwr]
          rw [this, Nat.zero_add]
          exact ih _
  · intro o st2 w h
    have h2 : (handleSubagentEnded st (some r) o).2 = some w := by rw [h]
    obtain ⟨hrid, ⟨e2, he2⟩, hdel⟩ := handleSubagentEnded_some st (some r) o w h2
    have hwr : w.runId = r := by
      injection hrid with hh
      rw [hh]
    have hst2 : st2 = mapDelete r st := by
      have := congrArg Prod.fst h
      simp at this
      rw [← this, hdel, hwr]
    have habs : mapGet r st2 = none := by
      rw [hst2]
      exact mapGet_mapDelete r st
    refine ⟨habs, fun o2 => ?_⟩
    simp [handleSubagentEnded, habs]

/-- Witness for C4: a tracker holding `run-1`, ended twice; one wake. -/
theorem handleSubagentEnded_wake_at_most_once_witness :
    ((runSubagentEnded
        (trackSpawn [] (some "run-1".toList) (some "parent-1".toList)
          "child-1".toList none)
        [(some "run-1".toList, some "ok".toList),
         (some "run-1".toList, some "ok".toList)]).2.countP
      (fun w => w.runId = "run-1".toList)) ≤ 1 ∧
    mapGet "run-1".toList
      (handleSubagentEnded
        (trackSpawn [] (some "run-1".toList) (some "parent-1".toList)
          "child-1".toList none)
        (some "run-1".toList) (some "ok".toList)).1 = none := by
  have hmain := handleSubagentEnded_wake_at_most_once
    (trackSpawn [] (some "run-1".toList) (some "parent-1".toList)
      "child-1".toList none)
    "run-1".toList
    [(some "run-1".toList, some "ok".toList),
     (some "run-1".toList, some "ok".toList)]
  refine ⟨hmain.1, ?_⟩
  have := hmain.2 (some "ok".toList)
    (handleSubagentEnded
      (trackSpawn [] (some "run-1".toList) (some "parent-1".toList)
        "child-1".toList none)
      (some "run-1".toList) (some "ok".toList)).1
    ⟨"run-1".toList, "parent-1".toList, "sk-sync-wake".toList,
      wakeMessage "run-1".toList
        ⟨"parent-1".toList, "child-1".toList, true⟩ (some "ok".toList)⟩
    (by rfl)
  exact this.1

/-- **C3.** `buildSkMessageKey` returns `sessionKey + ":" + messageId` when a
messageId is present (JS-truthy, i.e. nonempty), and otherwise
`sessionKey + ":msg:" + sha1(role + "|" + occurredAtMs + "|" + content)`;
it is deterministic in its arguments, and an explicit (nonempty) messageId
overrides the hash form. -/
theorem buildSkMessageKey_spec (sha1Hex : JStr → JStr) (sessionKey : JStr)
    (messageId : Option JStr) (role : JStr) (occurredAtMs : Option Int)
    (content : JStr) :
    (∀ m, messageId = some m → m ≠ [] →
      buildSkMessageKey sha1Hex sessionKey messageId role occurredAtMs content =
        sessionKey ++ ':' :: m) ∧
    ((messageId = none ∨ messageId = some []) →
      buildSkMessageKey sha1Hex sessionKey messageId role occurredAtMs content =
        sessionKey ++ ":msg:".toList ++
          sha1Hex (role ++ '|' :: numOrEmpty occurredAtMs ++ '|' :: content)) ∧
    (∀ (sk2 : JStr) (mid2 : Option JStr) (role2 : JStr) (ts2 : Option Int)
        (c2 : JStr),
      sessionKey = sk2 → messageId = mid2 → role = role2 → occurredAtMs = ts2 →
      content = c2 →
      buildSkMessageKey sha1Hex sessionKey messageId role occurredAtMs content =
        buildSkMessageKey sha1Hex sk2 mid2 role2 ts2 c2) := by
  refine ⟨?_, ?_, ?_⟩
  · intro m hm hne
    subst hm
    simp [buildSkMessageKey, hne]
  · intro h
    rcases h with h | h <;> subst h <;> simp [buildSkMessageKey]
  · intro sk2 mid2 role2 ts2 c2 h1 h2 h3 h4 h5
    subst h1; subst h2; subst h3; subst h4; subst h5
    rfl

/-- Witness for C3 (identity stand-in for the external sha1). -/
theorem buildSkMessageKey_spec_witness :
    buildSkMessageKey (fun s => s) "s".toList (some "m1".toList) "r".toList
        (some 5) "c".toList = "s".toList ++ ':' :: "m1".toList ∧
    buildSkMessageKey (fun s => s) "s".toList none "r".toList (some 5)
        "c".toList =
      "s".toList ++ ":msg:".toList ++
        ("r".toList ++ '|' :: numOrEmpty (some 5) ++ '|' :: "c".toList) :=
  ⟨(buildSkMessageKey_spec (fun s => s) "s".toList (some "m1".toList)
      "r".toList (some 5) "c".toList).1 "m1".toList rfl (by decide),
   (buildSkMessageKey_spec (fun s => s) "s".toList none "r".toList (some 5)
      "c".toList).2.1 (Or.inl rfl)⟩

/-! ### String lemmas for canonicalization -/

theorem hasColon_append (a b : JStr) :
    hasColon (a ++ b) = (hasColon a || hasColon b) := by
  induction a with
  | nil => simp [hasColon]
  | cons c rest ih => simp [hasColon, ih, Bool.or_assoc]

theorem hasColon_iff_mem (l : JStr) : hasColon l = true ↔ ':' ∈ l := by
  induction l with
  | nil => simp [hasColon]
  | cons c rest ih =>
    simp only [hasColon, Bool.or_eq_true, List.mem_cons, ih]
    constructor
    · rintro (h | h)
      · left; simp at h; exact h.symm
      · right; exact h
    · rintro (h | h)
      · left; simp only [decide_eq_true_eq]; exact h.symm
      · right; exact h

theorem mem_dropWhile_iff {c : Char} (hc : jsIsWs c = false) (l : JStr) :
    c ∈ l.dropWhile jsIsWs ↔ c ∈ l := by
  induction l with
  | nil => simp
  | cons a rest ih =>
    rw [List.dropWhile_cons]
    by_cases ha : jsIsWs a = true
    · rw [if_pos ha, ih]
      have hne : c ≠ a := by
        intro h
        rw [h] at hc
        rw [hc] at ha
        exact Bool.noConfusion ha
      simp [hne]
    · rw [if_neg ha]

theorem mem_jsTrim_iff {c : Char} (hc : jsIsWs c = false) (s : JStr) :
    c ∈ jsTrim s ↔ c ∈ s := by
  unfold jsTrim
  rw [List.mem_reverse, mem_dropWhile_iff hc, List.mem_reverse,
    mem_dropWhile_iff hc]

theorem hasColon_jsTrim (s : JStr) : hasColon (jsTrim s) = hasColon s := by
  by_cases h : hasColon s = true
  · rw [h]
    rw [hasColon_iff_mem] at h ⊢
    exact (mem_jsTrim_iff (by decide) s).mpr h
  · have h2 : hasColon (jsTrim s) = true → False := by
      intro hh
      rw [hasColon_iff_mem] at hh
      exact h (hasColon_iff_mem s |>.mpr ((mem_jsTrim_iff (by decide) s).mp hh))
    cases hts : hasColon (jsTrim s) with
    | false =>
      cases hs : hasColon s with
      | false => rfl
      | true => exact absurd hs h
    | true => exact absurd (h2 hts) (by simp)

theorem jsStartsWith_iff (p : JStr) :
    ∀ s, jsStartsWith s p = true ↔ ∃ t, s = p ++ t := by
  induction p with
  | nil =>
    intro s
    simp [jsStartsWith]
  | cons d p2 ih =>
    intro s
    cases s with
    | nil =>
      simp only [jsStartsWith]
      constructor
      · intro h; exact Bool.noConfusion h
      · rintro ⟨t, ht⟩; exact List.noConfusion ht
    | cons c s2 =>
      simp only [jsStartsWith, Bool.and_eq_true, decide_eq_true_eq, ih]
      constructor
      · rintro ⟨hcd, t, ht⟩
        exact ⟨t, by rw [hcd, ht]; rfl⟩
      · rintro ⟨t, ht⟩
        injection ht with h1 h2
        exact ⟨h1, t, h2⟩

theorem jsStartsWith_append (p t : JStr) : jsStartsWith (p ++ t) p = true :=
  (jsStartsWith_iff p (p ++ t)).mpr ⟨t, rfl⟩

theorem splitColon_pieces_colon_free :
    ∀ s : JStr, ∀ g ∈ splitColon s, hasColon g = false := by
  intro s
  induction s with
  | nil => intro g hg; simp [splitColon] at hg; simp [hg, hasColon]
  | cons c rest ih =>
    intro g hg
    by_cases hc : c = ':'
    · rw [splitColon, if_pos hc] at hg
      rcases List.mem_cons.mp hg with h | h
      · simp [h, hasColon]
      · exact ih g h
    · rw [splitColon, if_neg hc] at hg
      cases hs : splitColon rest with
      | nil => exact absurd hs (splitColon_ne_nil rest)
      | cons g0 gs =>
        rw [hs] at hg
        rcases List.mem_cons.mp hg with h | h
        · subst h
          have hg0 : hasColon g0 = false := ih g0 (by rw [hs]; simp)
          simp [hasColon, hc, hg0]
        · exact ih g (by rw [hs]; exact List.mem_cons_of_mem _ h)

theorem joinColon_splitColon : ∀ s : JStr, joinColon (splitColon s) = s := by
  intro s
  induction s with
  | nil => rfl
  | cons c rest ih =>
    by_cases hc : c = ':'
    · rw [splitColon, if_pos hc]
      cases hs : splitColon rest with
      | nil => exact absurd hs (splitColon_ne_nil rest)
      | cons g0 gs =>
        rw [hs] at ih
        simp only [joinColon, List.nil_append]
        rw [ih, hc]
    · rw [splitColon, if_neg hc]
      cases hs : splitColon rest with
      | nil => exact absurd hs (splitColon_ne_nil rest)
      | cons g0 gs =>
        rw [hs] at ih
        cases gs with
        | nil =>
          simp only [joinColon] at ih ⊢
          rw [ih]
        | cons g1 gs2 =>
          simp only [joinColon] at ih ⊢
          rw [List.cons_append, ih]

theorem splitColon_append_colon (w : JStr) :
    ∀ p : JStr, hasColon p = false → splitColon (p ++ ':' :: w) = p :: splitColon w := by
  intro p
  induction p with
  | nil =>
    intro _
    rw [List.nil_append, splitColon, if_pos rfl]
  | cons c rest ih =>
    intro h
    have hc : ¬ c = ':' := by
      intro hcc
      rw [hasColon, hcc] at h
      simp at h
    have hrest : hasColon rest = false := by
      rw [hasColon] at h
      simp only [Bool.or_eq_false_iff] at h
      exact h.2
    rw [List.cons_append, splitColon, if_neg hc, ih hrest]

theorem splitColon_no_colon : ∀ w : JStr, hasColon w = false → splitColon w = [w] := by
  intro w
  induction w with
  | nil => intro _; rfl
  | cons c rest ih =>
    intro h
    have hc : ¬ c = ':' := by
      intro hcc
      rw [hasColon, hcc] at h
      simp at h
    have hrest : hasColon rest = false := by
      rw [hasColon] at h
      simp only [Bool.or_eq_false_iff] at h
      exact h.2
    rw [splitColon, if_neg hc, ih hrest]

theorem head?_dropWhile {p : Char → Bool} :
    ∀ (l : JStr) (c : Char), (l.dropWhile p).head? = some c → p c = false := by
  intro l
  induction l with
  | nil => intro c h; simp at h
  | cons a rest ih =>
    intro c h
    rw [List.dropWhile_cons] at h
    by_cases ha : p a = true
    · rw [if_pos ha] at h
      exact ih c h
    · rw [if_neg ha] at h
      simp at h
      rw [← h]
      exact Bool.not_eq_true _ |>.mp ha

theorem jsTrim_getLast (s : JStr) (c : Char) (h : (jsTrim s).getLast? = some c) :
    jsIsWs c = false := by
  unfold jsTrim at h
  rw [List.getLast?_reverse] at h
  exact head?_dropWhile _ c h

theorem getLast?_append_right {α : Type} (l1 l2 : List α) (h : l2 ≠ []) :
    (l1 ++ l2).getLast? = l2.getLast? := by
  rw [List.getLast?_append]
  cases l2 with
  | nil => exact absurd rfl h
  | cons a t =>
    cases hg : (a :: t).getLast? with
    | none =>
      have hsome : (a :: t).getLast?.isSome := by simp [List.getLast?_isSome]
      rw [hg] at hsome
      simp at hsome
    | some c => simp

theorem isValidKey_iff (v : JStr) :
    isValidKey v = true ↔ (v ≠ [] ∧ hasColon v = false) := by
  unfold isValidKey
  rw [Bool.and_eq_true, Bool.not_eq_true', Bool.not_eq_true']
  constructor
  · exact fun ⟨h1, h2⟩ => ⟨by intro hv; rw [hv] at h1; simp at h1, h2⟩
  · exact fun ⟨h1, h2⟩ => ⟨by cases v with
      | nil => exact absurd rfl h1
      | cons _ _ => rfl, h2⟩

/-! ### Canonicalization: success characterizations -/

/-- Successful `canonicalizeProjectExternalId`: the external id is
`project:` plus a valid key whose final character is non-whitespace. -/
theorem canonicalizeProjectExternalId_some (x e k : JStr)
    (h : canonicalizeProjectExternalId x = some (e, k)) :
    e = "project:".toList ++ k ∧ isValidKey k = true ∧
    (∀ c, k.getLast? = some c → jsIsWs c = false) := by
  simp only [canonicalizeProjectExternalId] at h
  by_cases h1 : (jsTrim x).isEmpty = true
  · rw [if_pos h1] at h; exact Option.noConfusion h
  · rw [if_neg h1] at h
    by_cases h2 : jsStartsWith (jsTrim x) "project:".toList = true
    · rw [if_pos h2] at h
      by_cases h3 : isValidKey ((jsTrim x).drop 8) = true
      · rw [if_pos h3] at h
        simp only [Option.some.injEq, Prod.mk.injEq] at h
        obtain ⟨he, hk⟩ := h
        subst hk
        obtain ⟨t, ht⟩ := (jsStartsWith_iff _ _).mp h2
        have hdrop : (jsTrim x).drop 8 = t := by
          rw [ht]
          have : ("project:".toList).length = 8 := by decide
          rw [← this, List.drop_left]
        refine ⟨he.symm, h3, ?_⟩
        intro c hc
        have hne : (jsTrim x).drop 8 ≠ [] := ((isValidKey_iff _).mp h3).1
        have hgl : (jsTrim x).getLast? = t.getLast? := by
          rw [ht]
          exact getLast?_append_right _ t (by rw [← hdrop]; exact hne)
        exact jsTrim_getLast x c (by rw [hgl, ← hdrop]; exact hc)
      · rw [if_neg h3] at h; exact Option.noConfusion h
    · rw [if_neg h2] at h
      by_cases h4 : (!hasColon (jsTrim x)) = true
      · rw [if_pos h4] at h
        by_cases h5 : isValidKey (jsTrim x) = true
        · rw [if_pos h5] at h
          simp only [Option.some.injEq, Prod.mk.injEq] at h
          obtain ⟨he, hk⟩ := h
          subst hk
          exact ⟨he.symm, h5, fun c hc => jsTrim_getLast x c hc⟩
        · rw [if_neg h5] at h; exact Option.noConfusion h
      · rw [if_neg h4] at h; exact Option.noConfusion h

/-- Successful `canonicalizeWorkItemExternalId`: the external id is
`workitem:<projectKey>:<workItemKey>` with a valid work-item key whose
final character is non-whitespace. -/
theorem canonicalizeWorkItemExternalId_some (x pk e w : JStr)
    (h : canonicalizeWorkItemExternalId x pk = some (e, w)) :
    e = "workitem:".toList ++ pk ++ ':' :: w ∧ isValidKey w = true ∧
    (∀ c, w.getLast? = some c → jsIsWs c = false) ∧
    (matchesWorkItemForm x pk ∨
      (jsTrim x = w ∧ hasColon (jsTrim x) = false)) := by
  simp only [canonicalizeWorkItemExternalId] at h
  by_cases h1 : (jsTrim x).isEmpty = true
  · rw [if_pos h1] at h; exact Option.noConfusion h
  · rw [if_neg h1] at h
    by_cases h2 : jsStartsWith (jsTrim x) "workitem:".toList = true
    · rw [if_pos h2] at h
      obtain ⟨t, ht⟩ := (jsStartsWith_iff _ _).mp h2
      have hdrop : (jsTrim x).drop 9 = t := by
        rw [ht]
        have : ("workitem:".toList).length = 9 := by decide
        rw [← this, List.drop_left]
      cases hs : splitColon ((jsTrim x).drop 9) with
      | nil => exact absurd hs (splitColon_ne_nil _)
      | cons g0 gs =>
        cases gs with
        | nil => rw [hs] at h; exact Option.noConfusion h
        | cons g1 gs2 =>
          cases gs2 with
          | cons g2 gs3 => rw [hs] at h; exact Option.noConfusion h
          | nil =>
            rw [hs] at h
            simp only at h
            by_cases hempty : (g0.isEmpty || g1.isEmpty) = true
            · rw [if_pos hempty] at h; exact Option.noConfusion h
            · rw [if_neg hempty] at h
              by_cases hpk : g0 ≠ pk
              · rw [if_pos hpk] at h; exact Option.noConfusion h
              · rw [if_neg hpk] at h
                have hg0 : g0 = pk := not_not.mp hpk
                by_cases hvk : isValidKey g1 = true
                · rw [if_pos hvk] at h
                  simp only [Option.some.injEq, Prod.mk.injEq] at h
                  obtain ⟨he, hw⟩ := h
                  subst hw
                  have hjoin : t = g0 ++ ':' :: g1 := by
                    have hj := joinColon_splitColon ((jsTrim x).drop 9)
                    rw [hs] at hj
                    simp only [joinColon] at hj
                    rw [← hdrop]
                    exact hj.symm
                  have hwne : g1 ≠ [] := ((isValidKey_iff _).mp hvk).1
                  have hwnc : hasColon g1 = false := ((isValidKey_iff _).mp hvk).2
                  refine ⟨by rw [← he, hg0], hvk, ?_, ?_⟩
                  · intro c hc
                    have hlast : (jsTrim x).getLast? = g1.getLast? := by
                      rw [ht, hjoin]
                      rw [show ("workitem:".toList ++ (g0 ++ ':' :: g1)) =
                        ("workitem:".toList ++ g0 ++ [':']) ++ g1 by simp]
                      exact getLast?_append_right _ g1 hwne
                    exact jsTrim_getLast x c (by rw [hlast]; exact hc)
                  · refine Or.inl ⟨g1, by rw [ht, hjoin, hg0, List.append_assoc], ?_, ?_, hwne, hwnc⟩
                    · intro hpk0
                      exact hempty (by rw [hg0, hpk0]; rfl)
                    · rw [← hg0]
                      exact splitColon_pieces_colon_free _ g0 (by rw [hs]; simp)
                · rw [if_neg hvk] at h; exact Option.noConfusion h
    · rw [if_neg h2] at h
      by_cases h4 : (!hasColon (jsTrim x)) = true
      · rw [if_pos h4] at h
        by_cases h5 : isValidKey (jsTrim x) = true
        · rw [if_pos h5] at h
          simp only [Option.some.injEq, Prod.mk.injEq] at h
          obtain ⟨he, hw⟩ := h
          subst hw
          exact ⟨he.symm, h5, fun c hc => jsTrim_getLast x c hc,
            Or.inr ⟨rfl, by simpa using h4⟩⟩
        · rw [if_neg h5] at h; exact Option.noConfusion h
      · rw [if_neg h4] at h; exact Option.noConfusion h

/-- Successful `canonicalizeTaskExternalId`: the external id is
`task:<projectKey>:<workItemKey>:<taskKey>` with a valid task key whose
final character is non-whitespace. -/
theorem canonicalizeTaskExternalId_some (x pk wk e t : JStr)
    (h : canonicalizeTaskExternalId x pk wk = some (e, t)) :
    e = "task:".toList ++ pk ++ ':' :: wk ++ ':' :: t ∧ isValidKey t = true ∧
    (∀ c, t.getLast? = some c → jsIsWs c = false) := by
  simp only [canonicalizeTaskExternalId] at h
  by_cases h1 : (jsTrim x).isEmpty = true
  · rw [if_pos h1] at h; exact Option.noConfusion h
  · rw [if_neg h1] at h
    by_cases h2 : jsStartsWith (jsTrim x) "task:".toList = true
    · rw [if_pos h2] at h
      obtain ⟨u, hu⟩ := (jsStartsWith_iff _ _).mp h2
      have hdrop : (jsTrim x).drop 5 = u := by
        rw [hu]
        have : ("task:".toList).length = 5 := by decide
        rw [← this, List.drop_left]
      cases hs : splitColon ((jsTrim x).drop 5) with
      | nil => exact absurd hs (splitColon_ne_nil _)
      | cons g0 gs =>
        cases gs with
        | nil => rw [hs] at h; exact Option.noConfusion h
        | cons g1 gs2 =>
          cases gs2 with
          | nil => rw [hs] at h; exact Option.noConfusion h
          | cons g2 gs3 =>
            cases gs3 with
            | cons g3 gs4 => rw [hs] at h; exact Option.noConfusion h
            | nil =>
              rw [hs] at h
              simp only at h
              by_cases hempty : (g0.isEmpty || g1.isEmpty || g2.isEmpty) = true
              · rw [if_pos hempty] at h; exact Option.noConfusion h
              · rw [if_neg hempty] at h
                by_cases hpk : g0 ≠ pk
                · rw [if_pos hpk] at h; exact Option.noConfusion h
                · rw [if_neg hpk] at h
                  have hg0 : g0 = pk := not_not.mp hpk
                  by_cases hwk : g1 ≠ wk
                  · rw [if_pos hwk] at h; exact Option.noConfusion h
                  · rw [if_neg hwk] at h
                    have hg1 : g1 = wk := not_not.mp hwk
                    by_cases hvk : isValidKey g2 = true
                    · rw [if_pos hvk] at h
                      simp only [Option.some.injEq, Prod.mk.injEq] at h
                      obtain ⟨he, hw⟩ := h
                      subst hw
                      have hjoin : u = g0 ++ ':' :: g1 ++ ':' :: g2 := by
                        have hj := joinColon_splitColon ((jsTrim x).drop 5)
                        rw [hs] at hj
                        simp only [joinColon] at hj
                        rw [← hdrop]
                        simpa using hj.symm
                      refine ⟨by rw [← he, hg0, hg1], hvk, ?_⟩
                      intro c hc
                      have htne : g2 ≠ [] := ((isValidKey_iff _).mp hvk).1
                      have hlast : (jsTrim x).getLast? = g2.getLast? := by
                        rw [hu, hjoin]
                        rw [show ("task:".toList ++ (g0 ++ ':' :: g1 ++ ':' :: g2)) =
                          ("task:".toList ++ g0 ++ ':' :: g1 ++ [':']) ++ g2 by simp]
                        exact getLast?_append_right _ g2 htne
                      exact jsTrim_getLast x c (by rw [hlast]; exact hc)
                    · rw [if_neg hvk] at h; exact Option.noConfusion h
    · rw [if_neg h2] at h
      by_cases h4 : (!hasColon (jsTrim x)) = true
      · rw [if_pos h4] at h
        by_cases h5 : isValidKey (jsTrim x) = true
        · rw [if_pos h5] at h
          simp only [Option.some.injEq, Prod.mk.injEq] at h
          obtain ⟨he, hw⟩ := h
          subst hw
          exact ⟨he.symm, h5, fun c hc => jsTrim_getLast x c hc⟩
        · rw [if_neg h5] at h; exact Option.noConfusion h
      · rw [if_neg h4] at h; exact Option.noConfusion h

/-! ### Canonicalization: computing the canonical branches -/

theorem canonProj_compute (x k : JStr) (hx : jsTrim x = "project:".toList ++ k)
    (hk : k ≠ []) (hknc : hasColon k = false) :
    canonicalizeProjectExternalId x = some ("project:".toList ++ k, k) := by
  simp only [canonicalizeProjectExternalId, hx]
  have hie : ("project:".toList ++ k).isEmpty = false := rfl
  rw [if_neg (by simp [hie])]
  rw [if_pos (jsStartsWith_append "project:".toList k)]
  have hdrop : ("project:".toList ++ k).drop 8 = k := by
    have hlen : ("project:".toList).length = 8 := by decide
    rw [← hlen, List.drop_left]
  rw [hdrop, if_pos ((isValidKey_iff k).mpr ⟨hk, hknc⟩)]

theorem canonWI_compute (x pk w : JStr)
    (hx : jsTrim x = "workitem:".toList ++ pk ++ ':' :: w)
    (hpk : pk ≠ []) (hpknc : hasColon pk = false)
    (hw : w ≠ []) (hwnc : hasColon w = false) :
    canonicalizeWorkItemExternalId x pk =
      some ("workitem:".toList ++ pk ++ ':' :: w, w) := by
  have hassoc : "workitem:".toList ++ pk ++ ':' :: w =
      "workitem:".toList ++ (pk ++ ':' :: w) := List.append_assoc _ _ _
  simp only [canonicalizeWorkItemExternalId, hx]
  have hie : ("workitem:".toList ++ pk ++ ':' :: w).isEmpty = false := by
    rw [hassoc]; rfl
  rw [if_neg (by simp [hie])]
  rw [if_pos (by rw [hassoc]; exact jsStartsWith_append "workitem:".toList _)]
  have hdrop : ("workitem:".toList ++ pk ++ ':' :: w).drop 9 = pk ++ ':' :: w := by
    rw [hassoc]
    have hlen : ("workitem:".toList).length = 9 := by decide
    rw [← hlen, List.drop_left]
  rw [hdrop, splitColon_append_colon w pk hpknc, splitColon_no_colon w hwnc]
  simp only
  rw [if_neg (by simp [hpk, hw, List.isEmpty_iff])]
  rw [if_neg (by simp)]
  rw [if_pos ((isValidKey_iff w).mpr ⟨hw, hwnc⟩)]

theorem canonTask_compute (x pk wk t : JStr)
    (hx : jsTrim x = "task:".toList ++ pk ++ ':' :: wk ++ ':' :: t)
    (hpk : pk ≠ []) (hpknc : hasColon pk = false)
    (hwk : wk ≠ []) (hwknc : hasColon wk = false)
    (ht : t ≠ []) (htnc : hasColon t = false) :
    canonicalizeTaskExternalId x pk wk =
      some ("task:".toList ++ pk ++ ':' :: wk ++ ':' :: t, t) := by
  have hassoc : "task:".toList ++ pk ++ ':' :: wk ++ ':' :: t =
      "task:".toList ++ (pk ++ ':' :: (wk ++ ':' :: t)) := by
    simp [List.append_assoc]
  simp only [canonicalizeTaskExternalId, hx]
  have hie : ("task:".toList ++ pk ++ ':' :: wk ++ ':' :: t).isEmpty = false := by
    rw [hassoc]; rfl
  rw [if_neg (by simp [hie])]
  rw [if_pos (by rw [hassoc]; exact jsStartsWith_append "task:".toList _)]
  have hdrop : ("task:".toList ++ pk ++ ':' :: wk ++ ':' :: t).drop 5 =
      pk ++ ':' :: (wk ++ ':' :: t) := by
    rw [hassoc]
    have hlen : ("task:".toList).length = 5 := by decide
    rw [← hlen, List.drop_left]
  rw [hdrop, splitColon_append_colon _ pk hpknc,
    splitColon_append_colon t wk hwknc, splitColon_no_colon t htnc]
  simp only
  rw [if_neg (by simp [hpk, hwk, ht, List.isEmpty_iff])]
  rw [if_neg (by simp)]
  rw [if_neg (by simp)]
  rw [if_pos ((isValidKey_iff t).mpr ⟨ht, htnc⟩)]

theorem jsTrim_eq_self_of_head_last (s : JStr) (c0 : Char)
    (hh : s.head? = some c0) (hc0 : jsIsWs c0 = false)
    (hl : ∀ c, s.getLast? = some c → jsIsWs c = false) : jsTrim s = s :=
  jsTrim_eq_self s
    (fun c hc => by rw [hh] at hc; injection hc with hh2; rw [← hh2]; exact hc0)
    hl

/-- **C9 (amended).** External-ID canonicalization is idempotent on its own
output: unconditionally for `canonicalizeProjectExternalId`, and for
`canonicalizeWorkItemExternalId`/`canonicalizeTaskExternalId` whenever the
declared parent keys are themselves valid keys (nonempty and colon-free).
With an invalid parent key the promoted output need not re-canonicalize
(see the counterexample). -/
theorem canonicalize_idempotent (x pk wk : JStr) :
    (∀ e k, canonicalizeProjectExternalId x = some (e, k) →
      canonicalizeProjectExternalId e = some (e, k)) ∧
    (isValidKey pk = true →
      ∀ e w, canonicalizeWorkItemExternalId x pk = some (e, w) →
        canonicalizeWorkItemExternalId e pk = some (e, w)) ∧
    (isValidKey pk = true → isValidKey wk = true →
      ∀ e t, canonicalizeTaskExternalId x pk wk = some (e, t) →
        canonicalizeTaskExternalId e pk wk = some (e, t)) := by
  refine ⟨?_, ?_, ?_⟩
  · intro e k h
    obtain ⟨he, hvk, hlast⟩ := canonicalizeProjectExternalId_some x e k h
    obtain ⟨hkne, hknc⟩ := (isValidKey_iff k).mp hvk
    subst he
    have hgl : ("project:".toList ++ k).getLast? = k.getLast? :=
      getLast?_append_right _ k hkne
    have htrim : jsTrim ("project:".toList ++ k) = "project:".toList ++ k :=
      jsTrim_eq_self_of_head_last _ 'p' rfl (by decide)
        (fun c hc => hlast c (by rw [← hgl]; exact hc))
    exact canonProj_compute _ k htrim hkne hknc
  · intro hpkv e w h
    obtain ⟨hpkne, hpknc⟩ := (isValidKey_iff pk).mp hpkv
    obtain ⟨he, hvk, hlast, _⟩ := canonicalizeWorkItemExternalId_some x pk e w h
    obtain ⟨hwne, hwnc⟩ := (isValidKey_iff w).mp hvk
    subst he
    have hgl : ("workitem:".toList ++ pk ++ ':' :: w).getLast? = w.getLast? := by
      rw [show ("workitem:".toList ++ pk ++ ':' :: w) =
        ("workitem:".toList ++ pk ++ [':']) ++ w by simp]
      exact getLast?_append_right _ w hwne
    have htrim : jsTrim ("workitem:".toList ++ pk ++ ':' :: w) =
        "workitem:".toList ++ pk ++ ':' :: w :=
      jsTrim_eq_self_of_head_last _ 'w' rfl (by decide)
        (fun c hc => hlast c (by rw [← hgl]; exact hc))
    exact canonWI_compute _ pk w htrim hpkne hpknc hwne hwnc
  · intro hpkv hwkv e t h
    obtain ⟨hpkne, hpknc⟩ := (isValidKey_iff pk).mp hpkv
    obtain ⟨hwkne, hwknc⟩ := (isValidKey_iff wk).mp hwkv
    obtain ⟨he, hvk, hlast⟩ := canonicalizeTaskExternalId_some x pk wk e t h
    obtain ⟨htne, htnc⟩ := (isValidKey_iff t).mp hvk
    subst he
    have hgl : ("task:".toList ++ pk ++ ':' :: wk ++ ':' :: t).getLast? =
        t.getLast? := by
      rw [show ("task:".toList ++ pk ++ ':' :: wk ++ ':' :: t) =
        ("task:".toList ++ pk ++ ':' :: wk ++ [':']) ++ t by simp]
      exact getLast?_append_right _ t htne
    have htrim : jsTrim ("task:".toList ++ pk ++ ':' :: wk ++ ':' :: t) =
        "task:".toList ++ pk ++ ':' :: wk ++ ':' :: t :=
      jsTrim_eq_self_of_head_last _ 't' rfl (by decide)
        (fun c hc => hlast c (by rw [← hgl]; exact hc))
    exact canonTask_compute _ pk wk t htrim hpkne hpknc hwkne hwknc htne htnc

/-- Witness for C9 at concrete canonical outputs. -/
theorem canonicalize_idempotent_witness :
    canonicalizeProjectExternalId "project:p".toList =
      some ("project:p".toList, "p".toList) ∧
    canonicalizeWorkItemExternalId "workitem:p:w".toList "p".toList =
      some ("workitem:p:w".toList, "w".toList) ∧
    canonicalizeTaskExternalId "task:p:w:t".toList "p".toList "w".toList =
      some ("task:p:w:t".toList, "t".toList) :=
  ⟨(canonicalize_idempotent "p".toList "p".toList "w".toList).1
      "project:p".toList "p".toList (by rfl),
   (canonicalize_idempotent "w".toList "p".toList "w".toList).2.1 (by decide)
      "workitem:p:w".toList "w".toList (by rfl),
   (canonicalize_idempotent "t".toList "p".toList "w".toList).2.2 (by decide)
      (by decide) "task:p:w:t".toList "t".toList (by rfl)⟩

/-- **C9 counterexample.** With the (invalid) empty project key, the
promoted work-item output `workitem::w` fails to re-canonicalize: the claim
as stated — idempotence for every projectKey — is false. -/
theorem canonicalize_idempotent_counterexample :
    canonicalizeWorkItemExternalId "w".toList [] =
      some ("workitem::w".toList, "w".toList) ∧
    canonicalizeWorkItemExternalId "workitem::w".toList [] = none :=
  ⟨by rfl, by rfl⟩

/-- **C6 (amended).** `canonicalizeWorkItemExternalId(x, projectKey)` fails
iff `x` trims to the empty string, or `x` contains a colon and does not
match `workitem:<projectKey>:<workItemKey>` with the declared project key
and nonempty colon-free keys; every success returns the canonical external
id `workitem:<projectKey>:<workItemKey>`.  (The original claim lacked the
empty-input failure case; see the counterexample.) -/
theorem canonicalizeWorkItemExternalId_fail_iff (x pk : JStr) :
    (canonicalizeWorkItemExternalId x pk = none ↔
      (jsTrim x = [] ∨ (hasColon x = true ∧ ¬ matchesWorkItemForm x pk))) ∧
    (∀ e w, canonicalizeWorkItemExternalId x pk = some (e, w) →
      e = "workitem:".toList ++ pk ++ ':' :: w) := by
  have hcx : hasColon x = hasColon (jsTrim x) := (hasColon_jsTrim x).symm
  refine ⟨?_, fun e w h => (canonicalizeWorkItemExternalId_some x pk e w h).1⟩
  by_cases h1 : (jsTrim x).isEmpty = true
  · have hnone : canonicalizeWorkItemExternalId x pk = none := by
      simp [canonicalizeWorkItemExternalId, h1]
    rw [hnone]
    exact iff_of_true rfl (Or.inl (List.isEmpty_iff.mp h1))
  · have hraw_ne : jsTrim x ≠ [] := by
      intro hh
      rw [hh] at h1
      exact h1 rfl
    by_cases h2 : jsStartsWith (jsTrim x) "workitem:".toList = true
    · obtain ⟨t, ht⟩ := (jsStartsWith_iff _ _).mp h2
      have hcolon : hasColon (jsTrim x) = true := by
        rw [ht, hasColon_append]
        have hwc : hasColon "workitem:".toList = true := by decide
        rw [hwc]
        rfl
      by_cases hm : matchesWorkItemForm x pk
      · obtain ⟨wK, hxw, hpkne, hpknc, hwne, hwnc⟩ := hm
        have hsome := canonWI_compute x pk wK hxw hpkne hpknc hwne hwnc
        rw [hsome]
        apply iff_of_false
        · exact fun hh => Option.noConfusion hh
        · rintro (hh | hh)
          · exact hraw_ne hh
          · exact hh.2 ⟨wK, hxw, hpkne, hpknc, hwne, hwnc⟩
      · have hnone : canonicalizeWorkItemExternalId x pk = none := by
          cases hc : canonicalizeWorkItemExternalId x pk with
          | none => rfl
          | some p =>
            obtain ⟨e, w⟩ := p
            obtain ⟨_, _, _, hbr⟩ :=
              canonicalizeWorkItemExternalId_some x pk e w hc
            rcases hbr with hbr | hbr
            · exact absurd hbr hm
            · rw [hbr.2] at hcolon
              exact Bool.noConfusion hcolon
        rw [hnone]
        exact iff_of_true rfl (Or.inr ⟨by rw [hcx]; exact hcolon, hm⟩)
    · by_cases h4 : hasColon (jsTrim x) = true
      · have hnone : canonicalizeWorkItemExternalId x pk = none := by
          simp only [canonicalizeWorkItemExternalId]
          rw [if_neg h1, if_neg h2, if_neg (by rw [h4]; simp)]
        rw [hnone]
        refine iff_of_true rfl (Or.inr ⟨by rw [hcx]; exact h4, ?_⟩)
        intro hmm
        obtain ⟨wK, hxw, _, _, _, _⟩ := hmm
        apply h2
        rw [hxw, List.append_assoc]
        exact jsStartsWith_append "workitem:".toList _
      · have hb : hasColon (jsTrim x) = false := by
          cases hbb : hasColon (jsTrim x) with
          | false => rfl
          | true => exact absurd hbb h4
        have hvalid : isValidKey (jsTrim x) = true :=
          (isValidKey_iff _).mpr ⟨hraw_ne, hb⟩
        have hsome : canonicalizeWorkItemExternalId x pk =
            some ("workitem:".toList ++ pk ++ ':' :: jsTrim x, jsTrim x) := by
          simp only [canonicalizeWorkItemExternalId]
          rw [if_neg h1, if_neg h2, if_pos (by rw [hb]; rfl), if_pos hvalid]
        rw [hsome]
        apply iff_of_false
        · exact fun hh => Option.noConfusion hh
        · rintro (hh | hh)
          · exact hraw_ne hh
          · rw [hcx, hb] at hh
            exact Bool.noConfusion hh.1

/-- Witness for C6: a canonical success and a colon-mismatch failure. -/
theorem canonicalizeWorkItemExternalId_fail_iff_witness :
    "workitem:p:w".toList =
      "workitem:".toList ++ "p".toList ++ ':' :: "w".toList ∧
    (jsTrim "x:y".toList = [] ∨
      (hasColon "x:y".toList = true ∧
        ¬ matchesWorkItemForm "x:y".toList "p".toList)) :=
  ⟨(canonicalizeWorkItemExternalId_fail_iff "w".toList "p".toList).2
      "workitem:p:w".toList "w".toList (by rfl),
   (canonicalizeWorkItemExternalId_fail_iff "x:y".toList "p".toList).1.mp
      (by rfl)⟩

/-- **C6 counterexample.** The empty input fails (throws) although it
contains no colon, refuting the claimed "fails iff" at `x = ""`. -/
theorem canonicalizeWorkItemExternalId_fail_iff_counterexample :
    ¬ (canonicalizeWorkItemExternalId [] "p".toList = none ↔
        (hasColon [] = true ∧ ¬ matchesWorkItemForm [] "p".toList)) := by
  intro h
  have h1 : canonicalizeWorkItemExternalId [] "p".toList = none := by rfl
  have h2 := h.mp h1
  exact absurd h2.1 (by decide)

/-! ### Parser lemmas -/

theorem jsTrim_head (s : JStr) (c : Char) (h : (jsTrim s).head? = some c) :
    jsIsWs c = false := by
  unfold jsTrim at h
  rw [List.head?_reverse] at h
  have hBne : (s.dropWhile jsIsWs).reverse.dropWhile jsIsWs ≠ [] := by
    intro hb
    rw [hb] at h
    exact Option.noConfusion h
  have hpre : ((s.dropWhile jsIsWs).reverse.takeWhile jsIsWs) ++
      ((s.dropWhile jsIsWs).reverse.dropWhile jsIsWs) =
      (s.dropWhile jsIsWs).reverse := List.takeWhile_append_dropWhile _ _
  have h2 : (s.dropWhile jsIsWs).reverse.getLast? = some c := by
    rw [← hpre, getLast?_append_right _ _ hBne]
    exact h
  rw [List.getLast?_reverse] at h2
  exact head?_dropWhile _ c h2

/-- Every block produced by `extractTextBlocks` is a nonempty trimmed
string. -/
theorem extractTextBlocks_shape (content : Option Json) :
    ∀ t ∈ extractTextBlocks content, t ≠ [] ∧ ∃ s, t = jsTrim s := by
  intro t ht
  unfold extractTextBlocks at ht
  match content with
  | none => simp at ht
  | some .null => simp at ht
  | some (.bool b) => simp at ht
  | some (.num n) => simp at ht
  | some (.obj fs) => simp at ht
  | some (.str s) =>
    simp only at ht
    by_cases hs : jsTrim s = []
    · rw [if_pos hs] at ht
      simp at ht
    · rw [if_neg hs] at ht
      rcases List.mem_singleton.mp ht with h
      exact ⟨by rw [h]; exact hs, s, h⟩
  | some (.arr entries) =>
    simp only at ht
    rw [List.mem_filterMap] at ht
    obtain ⟨entry, _, he⟩ := ht
    by_cases h1 : isJsObject entry = true
    · rw [if_pos h1] at he
      by_cases h2 : normalizeTypeLower (entry.getField "type".toList) =
          "text".toList
      · rw [if_pos h2] at he
        match hfld : entry.getField "text".toList with
        | none => rw [hfld] at he; exact Option.noConfusion he
        | some .null => rw [hfld] at he; exact Option.noConfusion he
        | some (.bool b) => rw [hfld] at he; exact Option.noConfusion he
        | some (.num n) => rw [hfld] at he; exact Option.noConfusion he
        | some (.arr es) => rw [hfld] at he; exact Option.noConfusion he
        | some (.obj fs) => rw [hfld] at he; exact Option.noConfusion he
        | some (.str s2) =>
          rw [hfld] at he
          simp only at he
          by_cases hs2 : jsTrim s2 = []
          · rw [if_pos hs2] at he; exact Option.noConfusion he
          · rw [if_neg hs2] at he
            injection he with he2
            exact ⟨by rw [← he2]; exact hs2, s2, he2.symm⟩
      · rw [if_neg h2] at he; exact Option.noConfusion he
    · rw [if_neg h1] at he; exact Option.noConfusion he

theorem joinNL_getLast (ts : List JStr) (h : ∀ t ∈ ts, t ≠ []) (c : Char)
    (hc : (joinNL ts).getLast? = some c) :
    ∃ t ∈ ts, t.getLast? = some c := by
  induction ts with
  | nil => simp [joinNL] at hc
  | cons t rest ih =>
    cases rest with
    | nil => exact ⟨t, by simp, hc⟩
    | cons r rs =>
      have hne : joinNL (r :: rs) ≠ [] := by
        have hr : r ≠ [] := h r (by simp)
        cases rs with
        | nil => exact hr
        | cons r2 rs2 =>
          simp only [joinNL]
          cases r with
          | nil => exact absurd rfl hr
          | cons a tl => simp
      have hstep : (joinNL (t :: r :: rs)).getLast? =
          (joinNL (r :: rs)).getLast? := by
        simp only [joinNL]
        rw [show (t ++ '\n' :: joinNL (r :: rs)) =
          (t ++ ['\n']) ++ joinNL (r :: rs) by simp]
        exact getLast?_append_right _ _ hne
      rw [hstep] at hc
      obtain ⟨t2, ht2, hl⟩ :=
        ih (fun x hx => h x (List.mem_cons_of_mem _ hx)) hc
      exact ⟨t2, List.mem_cons_of_mem _ ht2, hl⟩

/-- The newline-join of trimmed nonempty blocks is itself trimmed. -/
theorem jsTrim_joinNL (ts : List JStr)
    (h : ∀ t ∈ ts, t ≠ [] ∧ ∃ s, t = jsTrim s) :
    jsTrim (joinNL ts) = joinNL ts := by
  cases ts with
  | nil => rfl
  | cons t rest =>
    apply jsTrim_eq_self
    · intro c hc
      obtain ⟨htne, s, hts⟩ := h t (by simp)
      have hhead : (joinNL (t :: rest)).head? = t.head? := by
        cases rest with
        | nil => rfl
        | cons r rs =>
          simp only [joinNL]
          cases t with
          | nil => exact absurd rfl htne
          | cons a tl => rfl
      rw [hhead, hts] at hc
      exact jsTrim_head s c hc
    · intro c hc
      obtain ⟨t2, ht2, hl⟩ :=
        joinNL_getLast (t :: rest) (fun x hx => (h x hx).1) c hc
      obtain ⟨_, s2, hts2⟩ := h t2 ht2
      rw [hts2] at hl
      exact jsTrim_getLast s2 c hl

/-- **C7 (amended).** For a transcript record of type `"message"` whose
message role (trimmed) is `toolResult` or `tool_result` and which carries a
(coercible) `toolCallId`/`tool_call_id`: `parseTranscriptLineToEvents` emits
exactly one completion record — status `FAILED` iff `isError`/`is_error` is
*strictly* the boolean `true` (other truthy values give `SUCCEEDED`) — with
`resultText` the newline-joined text blocks and `errorText` that same text
exactly when FAILED; and when the joined text is non-empty, one message
record whose role is the record's own normalized role (`toolResult` or
`tool_result`; the exporter's `normalizeSkRole` maps it to `tool`
downstream), containing the text.  (The original claim's `role tool` and
"truthy" readings fail on the code; see the counterexample.) -/
theorem parseTranscriptLineToEvents_toolResult (dateParse : JStr → Option Int)
    (ctx : SessionFileContext) (record msg : Json) (sessionId roleStr id : JStr)
    (texts : List JStr) (mid : Option JStr) (ts : Option Int)
    (tname : Option JStr) (isErr : Bool)
    (h1 : ctx.sessionId = some sessionId) (h2 : sessionId ≠ [])
    (h3 : isMessageType record = true)
    (h4 : record.getField "message".toList = some msg)
    (h5 : isJsObject msg = true)
    (h6 : normalizeRole (msg.getField "role".toList) = roleStr)
    (h7 : roleStr = "toolResult".toList ∨ roleStr = "tool_result".toList)
    (h8 : (match coerceString (msg.getField "toolCallId".toList) with
      | some v => some v
      | none => coerceString (msg.getField "tool_call_id".toList)) = some id)
    (h9 : texts = extractTextBlocks (msg.getField "content".toList))
    (h10 : mid = coerceString (record.getField "id".toList))
    (h11 : ts = coerceTimestampMs dateParse (record.getField "timestamp".toList))
    (h12 : tname = (match coerceString (msg.getField "toolName".toList) with
      | some v => some v
      | none => coerceString (msg.getField "tool_name".toList)))
    (h13 : isErr = (isStrictTrue (msg.getField "isError".toList) ||
      isStrictTrue (msg.getField "is_error".toList))) :
    parseTranscriptLineToEvents dateParse ctx record =
      some ⟨⟨sessionId, ctx.agentId, ctx.topicId⟩,
        (if joinNL texts = [] then []
         else [⟨sessionId, ctx.agentId, ctx.topicId, mid, ts, roleStr,
           joinNL texts⟩]),
        [⟨sessionId, ctx.agentId, ctx.topicId, mid, id, tname,
          (if isErr then .FAILED else .SUCCEEDED), ts, none, some (joinNL texts),
          (if isErr then some (joinNL texts) else none)⟩]⟩ := by
  have htrimj : jsTrim (joinNL texts) = joinNL texts := by
    rw [h9]
    exact jsTrim_joinNL _ (extractTextBlocks_shape _)
  simp only [parseTranscriptLineToEvents, h1, h3, h4, h5, h6, h8,
    not_true_eq_false, if_false, Bool.false_eq_true]
  rw [if_neg h2]
  have hnotua : ¬ (roleStr = "user".toList ∨ roleStr = "assistant".toList) := by
    rcases h7 with h7 | h7 <;> subst h7 <;> decide
  rw [if_neg hnotua, if_pos h7]
  rw [← h9, htrimj, ← h10, ← h11, ← h12, ← h13]

/-- Witness for C7: a `tool_result` record with a text block and no error
flag yields one SUCCEEDED completion plus one `tool_result`-role message. -/
theorem parseTranscriptLineToEvents_toolResult_witness :
    parseTranscriptLineToEvents (fun _ => none)
        ⟨some "s".toList, none, none⟩
        (.obj [("type".toList, .str "message".toList),
          ("message".toList, .obj
            [("role".toList, .str "tool_result".toList),
             ("toolCallId".toList, .str "tc1".toList),
             ("content".toList, .str "done".toList)])]) =
      some ⟨⟨"s".toList, none, none⟩,
        [⟨"s".toList, none, none, none, none, "tool_result".toList,
          "done".toList⟩],
        [⟨"s".toList, none, none, none, "tc1".toList, none, .SUCCEEDED, none,
          none, some "done".toList, none⟩]⟩ := by
  have h := parseTranscriptLineToEvents_toolResult (fun _ => none)
    ⟨some "s".toList, none, none⟩
    (.obj [("type".toList, .str "message".toList),
      ("message".toList, .obj
        [("role".toList, .str "tool_result".toList),
         ("toolCallId".toList, .str "tc1".toList),
         ("content".toList, .str "done".toList)])])
    (.obj [("role".toList, .str "tool_result".toList),
      ("toolCallId".toList, .str "tc1".toList),
      ("content".toList, .str "done".toList)])
    "s".toList "tool_result".toList "tc1".toList ["done".toList] none none
    none false
    rfl (by decide) (by rfl) (by rfl) (by rfl) (by rfl) (Or.inr rfl) (by rfl)
    (by rfl) (by rfl) (by rfl) (by rfl) (by rfl)
  rw [h]
  rfl

/-- **C7 counterexample.** A `toolResult` record with `isError: 1` (truthy
but not `true`) and text `done`: the code emits status SUCCEEDED (the claim
predicts FAILED) and a message with role `toolResult` (the claim predicts
`tool`). -/
theorem parseTranscriptLineToEvents_toolResult_counterexample :
    (parseTranscriptLineToEvents (fun _ => none)
        ⟨some "s".toList, none, none⟩
        (.obj [("type".toList, .str "message".toList),
          ("message".toList, .obj
            [("role".toList, .str "toolResult".toList),
             ("toolCallId".toList, .str "tc1".toList),
             ("isError".toList, .num 1),
             ("content".toList, .str "done".toList)])])).map
      (fun ev => (ev.toolCalls.map (fun r => r.status),
        ev.messages.map (fun r => r.role))) =
      some ([.SUCCEEDED], ["toolResult".toList]) ∧
    SkToolCallStatus.SUCCEEDED ≠ SkToolCallStatus.FAILED ∧
    "toolResult".toList ≠ "tool".toList := by
  refine ⟨by decide, by decide, by decide⟩

/-! ### Tailer lemmas -/

/-- Every line returned by the splitting loop is a slice of the unread
input (or was already collected). -/
theorem readLinesGo_slices (max : Nat) :
    ∀ (bytes cur : FileBytes) (acc : List FileBytes) (consumed pos : Nat),
    ∀ l ∈ (readLinesGo max bytes cur acc consumed pos).1,
      l ∈ acc.reverse ∨ ∃ a b, l = ((cur.reverse ++ bytes).drop a).take b := by
  intro bytes
  induction bytes with
  | nil =>
    intro cur acc consumed pos l hl
    simp only [readLinesGo] at hl
    exact Or.inl hl
  | cons b rest ih =>
    intro cur acc consumed pos l hl
    simp only [readLinesGo] at hl
    by_cases hmax : acc.length ≥ max
    · rw [if_pos hmax] at hl
      exact Or.inl hl
    · rw [if_neg hmax] at hl
      by_cases hb : b = 10
      · rw [if_pos hb] at hl
        rcases ih [] (if lineIsBlank cur.reverse then acc else cur.reverse :: acc)
            (pos + 1) (pos + 1) l hl with hin | ⟨a, b2, hab⟩
        · by_cases hblank : lineIsBlank cur.reverse = true
          · rw [if_pos hblank] at hin
            exact Or.inl hin
          · rw [if_neg hblank] at hin
            rw [List.reverse_cons] at hin
            rcases List.mem_append.mp hin with hin | hin
            · exact Or.inl hin
            · have hl2 : l = cur.reverse := List.mem_singleton.mp hin
              refine Or.inr ⟨0, cur.reverse.length, ?_⟩
              rw [hl2, List.drop_zero]
              exact (List.take_left _ _).symm
        · simp only [List.reverse_nil, List.nil_append] at hab
          refine Or.inr ⟨cur.reverse.length + 1 + a, b2, ?_⟩
          rw [hab]
          congr 1
          rw [show cur.reverse ++ b :: rest = (cur.reverse ++ [b]) ++ rest by simp]
          rw [show cur.reverse.length + 1 + a = (cur.reverse ++ [b]).length + a by
            simp]
          exact (List.drop_append a).symm
      · rw [if_neg hb] at hl
        rcases ih (b :: cur) acc consumed (pos + 1) l hl with hin | ⟨a, b2, hab⟩
        · exact Or.inl hin
        · refine Or.inr ⟨a, b2, ?_⟩
          rw [hab]
          congr 2
          simp

/-- One non-discovery tick: the cursor never moves backwards and every
emitted line is a slice of the file at or after the cursor. -/
theorem scanFile_step (off : Nat) (f : Option FileBytes) :
    (∃ off2, (scanFile false (some off) f).1 = some off2 ∧ off ≤ off2) ∧
    (∀ l ∈ (scanFile false (some off) f).2,
      ∃ cont a b, f = some cont ∧ off ≤ a ∧ l = (cont.drop a).take b) := by
  cases f with
  | none =>
    constructor
    · exact ⟨off, by simp [scanFile, readAppendedJsonlLines], le_refl off⟩
    · intro l hl
      simp [scanFile, readAppendedJsonlLines] at hl
  | some content =>
    by_cases hoff : off ≥ content.length
    · constructor
      · refine ⟨off, ?_, le_refl off⟩
        simp [scanFile, readAppendedJsonlLines, hoff]
      · intro l hl
        simp [scanFile, readAppendedJsonlLines, hoff] at hl
    · have hra : readAppendedJsonlLines (some content) off 200 =
          ((readLinesGo 200 (content.drop off) [] [] 0 0).1,
            off + (readLinesGo 200 (content.drop off) [] [] 0 0).2) := by
        simp [readAppendedJsonlLines, hoff]
      constructor
      · simp only [scanFile, Option.getD_some, hra]
        by_cases hchg : off + (readLinesGo 200 (content.drop off) [] [] 0 0).2 ≠ off
        · rw [if_pos hchg]
          exact ⟨_, rfl, Nat.le_add_right _ _⟩
        · rw [if_neg hchg]
          exact ⟨off, rfl, le_refl off⟩
      · intro l hl
        simp only [scanFile, Option.getD_some, hra] at hl
        rcases readLinesGo_slices 200 (content.drop off) [] [] 0 0 l hl with
          hin | ⟨a, b, hab⟩
        · simp at hin
        · refine ⟨content, off + a, b, rfl, Nat.le_add_right _ _, ?_⟩
          rw [hab]
          simp only [List.reverse_nil, List.nil_append]
          congr 1
          rw [List.drop_drop, Nat.add_comm]

/-- Lines from successive ticks after discovery come only from positions at
or after the discovery cursor. -/
theorem tailScans_lines (n : Nat) (files : List (Option FileBytes)) :
    ∀ off, n ≤ off →
      ∀ pair ∈ files.zip (tailScans false (some off) files).2,
        ∀ l ∈ pair.2, ∃ cont a b, pair.1 = some cont ∧ n ≤ a ∧
          l = (cont.drop a).take b := by
  induction files with
  | nil =>
    intro off _ pair hp
    simp [tailScans] at hp
  | cons f rest ih =>
    intro off hoff pair hp
    obtain ⟨⟨off2, hoff2, hle⟩, hlines⟩ := scanFile_step off f
    simp only [tailScans, List.zip_cons_cons] at hp
    rcases List.mem_cons.mp hp with hp | hp
    · subst hp
      intro l hl
      obtain ⟨cont, a, b, hc, ha, hab⟩ := hlines l hl
      exact ⟨cont, a, b, hc, le_trans hoff ha, hab⟩
    · rw [hoff2] at hp
      exact ih off2 (le_trans hoff hle) pair hp

/-- **C2.** A transcript file discovered with no cursor entry and backfill
off gets its cursor set to the file's current size and yields no events
that tick; on every later tick (the file only growing by appends), each
line handed to the parser is a slice of the appended suffix — pre-existing
bytes are never parsed or exported. -/
theorem scanAndEnqueue_first_discovery (c0 : FileBytes)
    (files : List (Option FileBytes))
    (hpref : ∀ f ∈ files, ∀ cont, f = some cont → ∃ suff, cont = c0 ++ suff) :
    scanFile false none (some c0) = (some c0.length, []) ∧
    ∀ pair ∈ files.zip (tailScans false (some c0.length) files).2,
      ∀ l ∈ pair.2, ∃ cont suff a b, pair.1 = some cont ∧ cont = c0 ++ suff ∧
        l = (suff.drop a).take b := by
  refine ⟨rfl, ?_⟩
  intro pair hp l hl
  obtain ⟨cont, a, b, hc, ha, hab⟩ :=
    tailScans_lines c0.length files c0.length (le_refl _) pair hp l hl
  obtain ⟨suff, hsuff⟩ := hpref pair.1 (List.of_mem_zip hp).1 cont hc
  refine ⟨cont, suff, a - c0.length, b, hc, hsuff, ?_⟩
  rw [hab, hsuff]
  congr 1
  obtain ⟨a2, rfl⟩ : ∃ a2, a = c0.length + a2 := ⟨a - c0.length, by omega⟩
  rw [show c0.length + a2 - c0.length = a2 by omega]
  exact List.drop_append a2

/-- Witness for C2: file discovered with 4 bytes, then grown by a line
`xy\n` (bytes 120 121 10); the only emitted line is a slice of the appended
suffix. -/
theorem scanAndEnqueue_first_discovery_witness :
    scanFile false none (some [97, 98, 99, 10]) = (some 4, []) ∧
    ∃ cont suff a b, (some [97, 98, 99, 10, 120, 121, 10] :
        Option FileBytes) = some cont ∧
      cont = [97, 98, 99, 10] ++ suff ∧
      [120, 121] = (suff.drop a).take b := by
  have h := scanAndEnqueue_first_discovery [97, 98, 99, 10]
    [some [97, 98, 99, 10, 120, 121, 10]]
    (by
      intro f hf cont hcont
      simp at hf
      rw [hf] at hcont
      injection hcont with hc
      exact ⟨[120, 121, 10], hc.symm⟩)
  refine ⟨h.1, ?_⟩
  have h2 := h.2 (some [97, 98, 99, 10, 120, 121, 10], [[120, 121]])
    (by decide) [120, 121] (by decide)
  exact h2

end OpenClaw

namespace OpenClaw

/-- Witness for C10: insert at 0, duplicates at 3 and 9, expiry probe at 11,
window 10. -/
theorem shouldDedupe_keeps_insert_timestamp_witness :
    (runVoiceDedupe [] "a".toList "c".toList "f".toList 10 [0, 3, 9, 11]).1 =
      [false, true, true, false] ∧
    chatHasFp (runVoiceDedupe [] "a".toList "c".toList "f".toList 10 [0, 3, 9]).2
      ("a".toList ++ ':' :: "c".toList) "f".toList 0 := by
  have := shouldDedupe_keeps_insert_timestamp [] "a".toList "c".toList "f".toList
    10 0 [3, 9] 11 (by rfl) (by decide) (by decide)
  exact ⟨this.1, this.2⟩

end OpenClaw
